import Mathlib

/-!
# pwsf: PasswordSafe v3 reader

A shallow embedding of `keychain.go`, `item.go`, `crypto.go` and of `argsToRE` in
`main.go`.

* Byte slices, strings and in-memory readers are lists of bytes.
* A Go `(value, error)` pair is an `Except Error value`; where a method returns
  only an error, the result is a `Ret` next to the state it leaves behind.
* Library code (SHA-256, HMAC-SHA256, the Twofish block function, `sort.Sort`)
  is a parameter, `Lib`; what the library documents about it is `Lib.Contract`.
  Package `regexp` is the parameter `Regexp` in the same way.
* `Find` is the sequence its goroutine sends on the channel and how it ends.
* Run-time panics are results of their own, never errors.
* The two `for { ... }` loops run on fuel taken from the stream length.
-/

namespace Pwsf

/-- One byte. -/
abbrev Byte := Fin 256

/-- Go `error` values that the package returns.  `EOF` and `ErrUnexpectedEOF` are
the sentinels of package `io`; every other constructor is one `fmt.Errorf` call
site, carrying what its format verb prints. -/
inductive Error where
  /-- `io.EOF` -/
  | EOF
  /-- `io.ErrUnexpectedEOF` -/
  | ErrUnexpectedEOF
  /-- `"invalid tag %q"` -/
  | invalidTag (tag : List Byte)
  /-- `"can't read salt: %s"` -/
  | cantReadSalt (cause : Error)
  /-- `"can't read passsword stretch iterations: %s"` -/
  | cantReadIterations (cause : Error)
  /-- `"can't read hashed password: %s"` -/
  | cantReadHashedPassword (cause : Error)
  /-- `"can't read B12: %s"` -/
  | cantReadB12 (cause : Error)
  /-- `"can't read B34: %s"` (the message of both the B34 and the IV read) -/
  | cantReadB34 (cause : Error)
  /-- `"EOF marker not found"` -/
  | eofMarkerNotFound
  /-- `"data is not block aligned"` -/
  | notBlockAligned
  /-- `"invalid password"` -/
  | invalidPassword
  /-- `"can't parse items: %s"` -/
  | cantParseItems (cause : Error)
  /-- `"can't verify HMAC"` -/
  | cantVerifyHMAC
  /-- `"can't read header: %s"` -/
  | cantReadHeader (cause : Error)
  /-- `"can't read entry: %s"` -/
  | cantReadEntry (cause : Error)
  /-- `"can't read item length: %s"` -/
  | cantReadItemLength (cause : Error)
  /-- `"can't read item tp: %s"` -/
  | cantReadItemTp (cause : Error)
  /-- `"can't read item data: %s"` -/
  | cantReadItemData (cause : Error)
  deriving DecidableEq, Repr

deriving instance DecidableEq for Except

/-! ## Readers -/

/-- `io.ReadFull(r, buf)` with `len(buf) = n` on an in-memory reader: the bytes
read (or the error) and the reader afterwards.  Nothing read at all is `io.EOF`,
a short read is `io.ErrUnexpectedEOF`. -/
def ReadFull (r : List Byte) (n : Nat) : Except Error (List Byte) × List Byte :=
  if n ≤ r.length then (.ok (r.take n), r.drop n)
  else if r.length = 0 then (.error .EOF, [])
  else (.error .ErrUnexpectedEOF, [])

/-- `io.CopyN(ioutil.Discard, r, n)` with its results dropped: the reader after
skipping up to `n` bytes. -/
def CopyNDiscard (r : List Byte) (n : Nat) : List Byte :=
  r.drop n

/-- `binary.LittleEndian.Uint32` of a 4-byte buffer. -/
def Uint32 (b : List Byte) : Nat :=
  (b.getD 0 0).val + 256 * (b.getD 1 0).val + 65536 * (b.getD 2 0).val
    + 16777216 * (b.getD 3 0).val

/-- A running `hash.Hash`: `key` is `none` for `sha256.New()` and `some k` for
`hmac.New(sha256.New, k)`; `written` is what has been written since creation or
the last `Reset`. -/
structure Hash where
  key : Option (List Byte)
  written : List Byte
  deriving DecidableEq, Repr

/-- `h.Write(p)`. -/
def Hash.Write (h : Hash) (p : List Byte) : Hash :=
  { h with written := h.written ++ p }

/-- `h.Reset()`. -/
def Hash.Reset (h : Hash) : Hash :=
  { h with written := [] }

/-! ## item.go -/

/-- `type FieldType int`. -/
abbrev FieldType := Nat

def TypeEnd : FieldType := 0xFF
def TypeGroup : FieldType := 0x02
def TypeTitle : FieldType := 0x03
def TypeUsername : FieldType := 0x04
def TypeNotes : FieldType := 0x05
def TypePassword : FieldType := 0x06

/-- `type Field struct`. -/
structure Field where
  Typ : FieldType
  data : List Byte
  deriving DecidableEq, Repr

/-- `ReadField`: the `(*Field, error)` pair, the reader afterwards and the HMAC
afterwards. -/
def ReadField (r : List Byte) (mac : Hash) : Except Error Field × List Byte × Hash :=
  match ReadFull r 4 with
  | (.error e, r1) =>
    if e = .EOF then (.error .EOF, r1, mac)
    else (.error (.cantReadItemLength e), r1, mac)
  | (.ok buf, r1) =>
    let ln := Uint32 buf
    match ReadFull r1 1 with
    | (.error e, r2) => (.error (.cantReadItemTp e), r2, mac)
    | (.ok buf1, r2) =>
      let tp := buf1.getD 0 0
      match ReadFull r2 ln with
      | (.error e, r3) => (.error (.cantReadItemData e), r3, mac)
      | (.ok data, r3) =>
        let padding := (5 + ln) % 2 ^ 32 % 16
        let r4 := if padding ≠ 0 then CopyNDiscard r3 (16 - padding) else r3
        (.ok ⟨tp.val, data⟩, r4, mac.Write data)

/-- `(*Field).String` on a possibly nil field. -/
def Field.String (f : Option Field) : List Byte :=
  match f with
  | none => []
  | some f => f.data

/-- `type Item struct`: the map `Fields`, kept as a list with one field per key. -/
structure Item where
  Fields : List Field
  deriving DecidableEq, Repr

/-- The map read `i.Fields[t]` (nil when the key is absent). -/
def Item.get (i : Item) (t : FieldType) : Option Field :=
  i.Fields.find? (fun f => f.Typ = t)

/-- The map write `i.Fields[f.Type] = f`. -/
def Item.set (i : Item) (f : Field) : Item :=
  ⟨f :: i.Fields.filter (fun g => g.Typ ≠ f.Typ)⟩

/-- The field loop of `ReadItem`; `none` when the fuel runs out. -/
def ReadItem.loop : Nat → Item → List Byte → Hash →
    Option (Except Error Item × List Byte × Hash)
  | 0, _, _, _ => none
  | fuel + 1, i, r, mac =>
    match ReadField r mac with
    | (.error err, r1, mac1) =>
      if err = .EOF ∧ i.Fields.length = 0 then some (.error .EOF, r1, mac1)
      else some (.error err, r1, mac1)
    | (.ok f, r1, mac1) =>
      if f.Typ = TypeEnd then some (.ok i, r1, mac1)
      else ReadItem.loop fuel (i.set f) r1 mac1

/-- `ReadItem`. -/
def ReadItem (r : List Byte) (mac : Hash) : Option (Except Error Item × List Byte × Hash) :=
  ReadItem.loop (r.length + 1) ⟨[]⟩ r mac

/-- `(*Item).String`: the display name. -/
def Item.String (i : Item) : List Byte :=
  match i.get TypeGroup with
  | some group => Field.String (some group) ++ [46] ++ Field.String (i.get TypeTitle)
  | none => Field.String (i.get TypeTitle)

/-- Go's `<` on strings: byte-wise lexicographic. -/
def stringLess : List Byte → List Byte → Bool
  | [], [] => false
  | [], _ :: _ => true
  | _ :: _, [] => false
  | a :: s, b :: t => a < b || (a = b && stringLess s t)

/-- `ByName.Less`. -/
def ByName.Less (a b : Item) : Bool :=
  stringLess a.String b.String

/-! ## Library code -/

/-- The library functions the package calls.  `sha256` is `crypto/sha256`,
`hmacSHA256 key msg` is `crypto/hmac` over SHA-256, `twofishDecrypt key block` is
`(*twofish.Cipher).Decrypt` on one block, `sortByName` is `sort.Sort` on a `ByName`. -/
structure Lib where
  sha256 : List Byte → List Byte
  hmacSHA256 : List Byte → List Byte → List Byte
  twofishDecrypt : List Byte → List Byte → List Byte
  sortByName : List Item → List Item

/-- What the library documents about these functions: digests and MACs have 32
bytes, a Twofish block stays 16 bytes, and `sort.Sort` only swaps elements and
leaves them in ascending order of `Less`. -/
structure Lib.Contract (P : Lib) : Prop where
  sha256_size : ∀ m, (P.sha256 m).length = 32
  hmac_size : ∀ k m, (P.hmacSHA256 k m).length = 32
  twofish_size : ∀ k b, b.length = 16 → (P.twofishDecrypt k b).length = 16
  sort_perm : ∀ l, (P.sortByName l).Perm l
  sort_sorted : ∀ l, (P.sortByName l).Pairwise (fun a b => ByName.Less b a = false)

/-- `h.Sum(nil)`. -/
def Hash.Sum (P : Lib) (h : Hash) : List Byte :=
  match h.key with
  | none => P.sha256 h.written
  | some k => P.hmacSHA256 k h.written

/-! ## crypto.go -/

/-- The `for i := uint32(0); i < n; i++` loop of `strechPassword`. -/
def strechPassword.loop (P : Lib) : Nat → Hash → Hash
  | 0, h => h
  | n + 1, h =>
    let p := h.Sum P
    let h := h.Reset
    let h := h.Write p
    strechPassword.loop P n h

/-- `strechPassword`. -/
def strechPassword (P : Lib) (pwd salt : List Byte) (n : Nat) : List Byte :=
  let h : Hash := ⟨none, []⟩
  let h := h.Write pwd
  let h := h.Write salt
  let h := strechPassword.loop P n h
  h.Sum P

/-- `twofish.NewCipher`: a `KeySizeError` (here `none`) unless the key has 16, 24
or 32 bytes. -/
def NewCipher (key : List Byte) : Option (List Byte) :=
  if key.length = 16 ∨ key.length = 24 ∨ key.length = 32 then some key else none

/-- The block loop of `decryptECB` over the blocks still to do: `none` is the
panic of slicing `dst[i:i+16]` or `src[i:i+16]` past the end (the slices are whole
arrays, so capacity and length agree). -/
def decryptECB.loop (P : Lib) (key : List Byte) : Nat → List Byte → List Byte →
    Option (List Byte)
  | 0, dst, _ => some dst
  | n + 1, dst, src =>
    if src.length < 16 ∨ dst.length < 16 then none
    else (decryptECB.loop P key n (dst.drop 16) (src.drop 16)).map
      (fun rest => P.twofishDecrypt key (src.take 16) ++ rest)

/-- `decryptECB(dst, src, key)`: the contents of `dst` afterwards, `none` for a
panic.  The loop runs once per started block of `src`. -/
def decryptECB (P : Lib) (dst src key : List Byte) : Option (List Byte) :=
  match NewCipher key with
  | none => none
  | some k => decryptECB.loop P k ((src.length + 15) / 16) dst src

/-- Byte-wise exclusive or. -/
def xorBytes (a b : List Byte) : List Byte :=
  List.zipWith (fun x y => x ^^^ y) a b

/-- `CryptBlocks` of a CBC decrypter on `n` whole blocks: each decrypted block is
xored with the ciphertext block before it, the first with the IV. -/
def cbcBlocks (P : Lib) (key : List Byte) : Nat → List Byte → List Byte → List Byte
  | 0, _, _ => []
  | n + 1, prev, src =>
    xorBytes (P.twofishDecrypt key (src.take 16)) prev
      ++ cbcBlocks P key n (src.take 16) (src.drop 16)

/-- `decryptCBC(dst, src, key, iv)`: the contents of `dst` afterwards, `none` for
a panic (bad key size, IV not one block, input not full blocks, output shorter
than input). -/
def decryptCBC (P : Lib) (dst src key iv : List Byte) : Option (List Byte) :=
  match NewCipher key with
  | none => none
  | some k =>
    if iv.length ≠ 16 then none
    else if src.length % 16 ≠ 0 then none
    else if dst.length < src.length then none
    else some (cbcBlocks P k (src.length / 16) iv src ++ dst.drop src.length)

/-! ## keychain.go -/

/-- `type Keychain struct`.  The fixed-size arrays (`salt`, `pwd`, `b12`, `b34` of
32 bytes, `iv` of 16) are lists here; where a size matters it is a hypothesis or
comes from `parseFile`. -/
structure Keychain where
  salt : List Byte
  pwd : List Byte
  b12 : List Byte
  b34 : List Byte
  iv : List Byte
  iter : Nat
  data : List Byte
  mac : List Byte
  Header : Option Item
  Items : List Item
  deriving DecidableEq, Repr

/-- The tag `"PWS3"`. -/
def tagPWS3 : List Byte := [80, 87, 83, 51]

/-- The marker `"PWS3-EOFPWS3-EOF"`. -/
def eofMarker : List Byte :=
  [80, 87, 83, 51, 45, 69, 79, 70, 80, 87, 83, 51, 45, 69, 79, 70]

/-- Whether `s` begins with `sep`. -/
def startsWith : List Byte → List Byte → Bool
  | _, [] => true
  | [], _ :: _ => false
  | a :: s, b :: sep => a = b && startsWith s sep

/-- `bytes.Index(s, sep)`: the offset of the first occurrence of `sep` in `s`,
`none` for `-1`. -/
def Index : List Byte → List Byte → Option Nat
  | [], sep => if startsWith [] sep then some 0 else none
  | a :: s, sep =>
    if startsWith (a :: s) sep then some 0 else (Index s sep).map (fun i => i + 1)

/-- `(*Keychain).parseFile` on the zero Keychain of `NewKeychain`, reading a file
with contents `f`.  `spare` is what the backing array of the slice returned by
`ioutil.ReadAll` holds past its length (`cap - len` bytes): the slice expression
`data[eof+16 : eof+16+32]` is checked against the capacity, not the length.
`none` is the panic of that slice expression; on an error the Keychain is
dropped by `NewKeychain`. -/
def parseFile (f spare : List Byte) : Option (Except Error Keychain) :=
  match ReadFull f 4 with
  | (.error err, _) => some (.error err)
  | (.ok tag, f1) =>
  if tag ≠ tagPWS3 then some (.error (.invalidTag tag)) else
  match ReadFull f1 32 with
  | (.error err, _) => some (.error (.cantReadSalt err))
  | (.ok salt, f2) =>
  match ReadFull f2 4 with
  | (.error err, _) => some (.error (.cantReadIterations err))
  | (.ok iter, f3) =>
  match ReadFull f3 32 with
  | (.error err, _) => some (.error (.cantReadHashedPassword err))
  | (.ok pwd, f4) =>
  match ReadFull f4 32 with
  | (.error err, _) => some (.error (.cantReadB12 err))
  | (.ok b12, f5) =>
  match ReadFull f5 32 with
  | (.error err, _) => some (.error (.cantReadB34 err))
  | (.ok b34, f6) =>
  match ReadFull f6 16 with
  | (.error err, _) => some (.error (.cantReadB34 err))
  | (.ok iv, f7) =>
  let data := f7
  match Index data eofMarker with
  | none => some (.error .eofMarkerNotFound)
  | some eof =>
  let cdata := data.take eof
  if cdata.length % 16 ≠ 0 then some (.error .notBlockAligned) else
  if eof + 16 + 32 ≤ data.length + spare.length then
    some (.ok
      { salt := salt, pwd := pwd, b12 := b12, b34 := b34, iv := iv,
        iter := Uint32 iter, data := cdata,
        mac := ((data ++ spare).drop (eof + 16)).take 32,
        Header := none, Items := [] })
  else none

/-- What a call hands back besides its state: a nil error, an error, a panic, or
nothing because the loop fuel ran out. -/
inductive Ret where
  | nil
  | error (e : Error)
  | panic
  | hang
  deriving DecidableEq, Repr

/-- The entry loop of `parseItems`. -/
def parseItems.loop : Nat → Keychain → List Byte → Hash → Keychain × List Byte × Hash × Ret
  | 0, c, r, mac => (c, r, mac, .hang)
  | fuel + 1, c, r, mac =>
    match ReadItem r mac with
    | none => (c, r, mac, .hang)
    | some (.error err, r1, mac1) =>
      if err = .EOF then (c, r1, mac1, .nil)
      else (c, r1, mac1, .error (.cantReadEntry err))
    | some (.ok i, r1, mac1) =>
      parseItems.loop fuel { c with Items := c.Items ++ [i] } r1 mac1

/-- `(*Keychain).parseItems`: the Keychain, the reader and the HMAC afterwards,
and the returned error. -/
def parseItems (P : Lib) (c : Keychain) (r : List Byte) (mac : Hash) :
    Keychain × List Byte × Hash × Ret :=
  match ReadItem r mac with
  | none => (c, r, mac, .hang)
  | some (.error err, r1, mac1) => (c, r1, mac1, .error (.cantReadHeader err))
  | some (.ok h, r1, mac1) =>
    let c := { c with Header := some h, Items := [] }
    match parseItems.loop (r1.length + 1) c r1 mac1 with
    | (c, r2, mac2, .nil) => ({ c with Items := P.sortByName c.Items }, r2, mac2, .nil)
    | out => out

/-- The calls `Unlock` makes after the password check, for the ghost log. -/
inductive Call where
  | decryptECB
  | decryptCBC
  | parseItems
  deriving DecidableEq, Repr

/-- The outcome of `Unlock`: the Keychain afterwards, what was returned, and a
ghost log of the cipher and parser calls made, in call order. -/
structure UnlockOut where
  c : Keychain
  ret : Ret
  log : List Call
  deriving DecidableEq, Repr

/-- `(*Keychain).Unlock`. -/
def Unlock (P : Lib) (c : Keychain) (pwd : List Byte) : UnlockOut :=
  let stretched := strechPassword P pwd c.salt c.iter
  let hashed := P.sha256 stretched
  if c.pwd ≠ hashed then ⟨c, .error .invalidPassword, []⟩ else
  match decryptECB P (List.replicate 32 0) c.b12 stretched with
  | none => ⟨c, .panic, [.decryptECB]⟩
  | some k =>
  match decryptECB P (List.replicate 32 0) c.b34 stretched with
  | none => ⟨c, .panic, [.decryptECB, .decryptECB]⟩
  | some l =>
  match decryptCBC P (List.replicate c.data.length 0) c.data k c.iv with
  | none => ⟨c, .panic, [.decryptECB, .decryptECB, .decryptCBC]⟩
  | some cleartext =>
  let mac : Hash := ⟨some l, []⟩
  let log := [Call.decryptECB, .decryptECB, .decryptCBC, .parseItems]
  match parseItems P c cleartext mac with
  | (c1, _, _, .error err) => ⟨c1, .error (.cantParseItems err), log⟩
  | (c1, _, mac1, .nil) =>
    if mac1.Sum P ≠ c1.mac then ⟨c1, .error .cantVerifyHMAC, log⟩
    else ⟨c1, .nil, log⟩
  | (c1, _, _, out) => ⟨c1, out, log⟩

/-! ## A small library instance and sample inputs -/

/-- The sum of the bytes of a message, modulo 256. -/
def sumBytes (m : List Byte) : Byte :=
  m.foldl (fun acc b => acc + b) 0

/-- A small instance of `Lib` on which the code can be evaluated: the digest is
the byte sum of the message 32 times over, the MAC the byte sum of key and
message 32 times over, the block function is the identity, and sorting is a
stable insertion sort by `Less`. -/
def testLib : Lib where
  sha256 m := List.replicate 32 (sumBytes m)
  hmacSHA256 k m := List.replicate 32 (sumBytes k + sumBytes m)
  twofishDecrypt _ b := b
  sortByName := List.insertionSort (fun a b => ByName.Less b a = false)

/-- The field record with an empty payload and type `0xFF`: one end-of-record
field, padded to 16 bytes. -/
def endRecord : List Byte :=
  [0, 0, 0, 0, 255] ++ List.replicate 11 0

/-- The field record of a title field with the one-byte payload `"a"`, padded to
16 bytes. -/
def titleRecord : List Byte :=
  [1, 0, 0, 0, 3, 97] ++ List.replicate 10 0

/-- A Keychain as `parseFile` delivers it, locked: salt, IV and both wrapped
keys are zero, the iteration count is 0, the verification hash is the one
`testLib` gives the password `"pw"`.  Under `testLib` the cleartext of `data` is
`endRecord ++ titleRecord ++ endRecord`: an empty header, then one entry with
title `"a"`. -/
def sampleKeychain (mac : List Byte) : Keychain where
  salt := List.replicate 32 0
  pwd := List.replicate 32 224
  b12 := List.replicate 32 0
  b34 := List.replicate 32 0
  iv := List.replicate 16 0
  iter := 0
  data := [0, 0, 0, 0, 255] ++ List.replicate 11 0
    ++ [1, 0, 0, 0, 252, 97] ++ List.replicate 10 0
    ++ [1, 0, 0, 0, 3, 97] ++ List.replicate 10 0
  mac := mac
  Header := none
  Items := []

/-- The password `"pw"`. -/
def samplePassword : List Byte := [112, 119]

/-- A Keychain like `sampleKeychain` whose cleartext under `testLib` is
`endRecord ++ titleRecord`: an empty header, then a title field `"a"` after
which the stream ends, with no end-of-record field for that item. -/
def truncatedKeychain (mac : List Byte) : Keychain where
  salt := List.replicate 32 0
  pwd := List.replicate 32 224
  b12 := List.replicate 32 0
  b34 := List.replicate 32 0
  iv := List.replicate 16 0
  iter := 0
  data := [0, 0, 0, 0, 255] ++ List.replicate 11 0
    ++ [1, 0, 0, 0, 252, 97] ++ List.replicate 10 0
  mac := mac
  Header := none
  Items := []

/-- A file that stops right after the end-of-file marker: the tag, 148 zero
bytes of header, no ciphertext, the marker, and no HMAC bytes. -/
def shortFile : List Byte :=
  tagPWS3 ++ List.replicate 148 0 ++ eofMarker

/-- The file of `sampleKeychain (List.replicate 32 97)`: tag, zero salt, iteration
count 0, the verification hash of `"pw"`, two zero wrapped keys, zero IV, the
three ciphertext blocks, the marker and the HMAC that `testLib` computes. -/
def sampleFile : List Byte :=
  tagPWS3 ++ List.replicate 32 0 ++ [0, 0, 0, 0] ++ List.replicate 32 224
    ++ List.replicate 32 0 ++ List.replicate 32 0 ++ List.replicate 16 0
    ++ (sampleKeychain []).data ++ eofMarker ++ List.replicate 32 97

/-- A whole file with no entries: `shortFile` followed by 32 zero bytes of HMAC. -/
def emptyFile : List Byte :=
  shortFile ++ List.replicate 32 0

/-- The Keychain that `parseFile` returns on `emptyFile`. -/
def emptyKeychain : Keychain where
  salt := List.replicate 32 0
  pwd := List.replicate 32 0
  b12 := List.replicate 32 0
  b34 := List.replicate 32 0
  iv := List.replicate 16 0
  iter := 0
  data := []
  mac := List.replicate 32 0
  Header := none
  Items := []

/-! ## Notions the statements use -/

/-- The 4-byte little-endian encoding `LE32(n)` of a length. -/
def le32 (n : Nat) : List Byte :=
  [Fin.ofNat (n % 256), Fin.ofNat (n / 256 % 256), Fin.ofNat (n / 65536 % 256),
    Fin.ofNat (n / 16777216 % 256)]

/-- Key stretching as the specification defines it: `h 0 = SHA256(password ‖
salt)`, `h (i + 1) = SHA256(h i)`, and the result is `h n`. -/
def stretchRef (P : Lib) (pwd salt : List Byte) : Nat → List Byte
  | 0 => P.sha256 (pwd ++ salt)
  | i + 1 => P.sha256 (stretchRef P pwd salt i)

/-- The fields that successive `ReadField` calls deliver from a stream, up to
the first call that fails. -/
def readFields : Nat → List Byte → List Field
  | 0, _ => []
  | fuel + 1, r =>
    match ReadField r ⟨none, []⟩ with
    | (.ok f, r1, _) => f :: readFields fuel r1
    | (.error _, _, _) => []

/-- The payload bytes of every field read from a stream, in stream order. -/
def fieldPayloads (r : List Byte) : List Byte :=
  ((readFields (r.length + 1) r).map Field.data).flatten

/-- The items that successive `ReadItem` calls deliver from a stream, up to the
first call that fails. -/
def readItems : Nat → List Byte → List Item
  | 0, _ => []
  | fuel + 1, r =>
    match ReadItem r ⟨none, []⟩ with
    | some (.ok i, r1, _) => i :: readItems fuel r1
    | _ => []

/-- The items of a whole stream. -/
def itemsOf (r : List Byte) : List Item :=
  readItems (r.length + 1) r

/-- Independent-block decryption of a 32-byte wrapped key: its two 16-byte
blocks, each decrypted on its own under `key`. -/
def unwrapKey (P : Lib) (key b : List Byte) : List Byte :=
  P.twofishDecrypt key (b.take 16) ++ P.twofishDecrypt key (b.drop 16)

/-- The cleartext that `Unlock` hands to `parseItems` and the HMAC key `L`, when
no cipher call panics. -/
def unlockCleartext (P : Lib) (c : Keychain) (pwd : List Byte) :
    Option (List Byte × List Byte) :=
  let stretched := strechPassword P pwd c.salt c.iter
  match decryptECB P (List.replicate 32 0) c.b12 stretched with
  | none => none
  | some k =>
  match decryptECB P (List.replicate 32 0) c.b34 stretched with
  | none => none
  | some l =>
  match decryptCBC P (List.replicate c.data.length 0) c.data k c.iv with
  | none => none
  | some cleartext => some (cleartext, l)

/-- The key `K`: the first wrapped key, unwrapped under the stretched password. -/
def keyK (P : Lib) (c : Keychain) (pwd : List Byte) : List Byte :=
  unwrapKey P (strechPassword P pwd c.salt c.iter) c.b12

/-- The key `L`: the second wrapped key, unwrapped under the stretched password. -/
def keyL (P : Lib) (c : Keychain) (pwd : List Byte) : List Byte :=
  unwrapKey P (strechPassword P pwd c.salt c.iter) c.b34

/-- The CBC decryption of the ciphertext under `K` and the container's IV. -/
def cleartextOf (P : Lib) (c : Keychain) (pwd : List Byte) : List Byte :=
  cbcBlocks P (keyK P c pwd) (c.data.length / 16) c.iv c.data

/-- The separator `sep` occurs in `s` at offset `n` and at no earlier offset. -/
def FirstOccurrence (s sep : List Byte) (n : Nat) : Prop :=
  sep <+: s.drop n ∧ n ≤ s.length ∧ ∀ j, j < n → ¬ sep <+: s.drop j

/-- One field of the cleartext as it is written: the type byte, the payload and
the padding bytes after it. -/
structure Record where
  tp : Byte
  payload : List Byte
  pad : List Byte
  deriving DecidableEq, Repr

/-- A well-formed field record: the payload length fits the 4-byte prefix and
the padding fills up the last 16-byte block. -/
def Record.WellFormed (f : Record) : Prop :=
  f.payload.length < 2 ^ 32 ∧ f.pad.length = (16 - (5 + f.payload.length) % 16) % 16

instance (f : Record) : Decidable f.WellFormed :=
  inferInstanceAs (Decidable
    (f.payload.length < 2 ^ 32 ∧ f.pad.length = (16 - (5 + f.payload.length) % 16) % 16))

/-- The bytes of a field record: `LE32(L)`, type, payload, padding. -/
def Record.bytes (f : Record) : List Byte :=
  le32 f.payload.length ++ [f.tp] ++ f.payload ++ f.pad

/-- The `Field` a record stands for. -/
def Record.field (f : Record) : Field :=
  ⟨f.tp.val, f.payload⟩

/-- One complete item of the cleartext as it is written: its fields, then the
end-of-record field that closes it. -/
structure ItemRecord where
  fields : List Record
  last : Record
  deriving DecidableEq, Repr

/-- A well-formed item: well-formed fields of types other than `0xFF`, closed by
a well-formed field of type `0xFF`. -/
def ItemRecord.WellFormed (x : ItemRecord) : Prop :=
  (∀ f ∈ x.fields, f.WellFormed ∧ f.tp.val ≠ TypeEnd) ∧
    x.last.WellFormed ∧ x.last.tp.val = TypeEnd

instance (x : ItemRecord) : Decidable x.WellFormed :=
  inferInstanceAs (Decidable
    ((∀ f ∈ x.fields, f.WellFormed ∧ f.tp.val ≠ TypeEnd) ∧
      x.last.WellFormed ∧ x.last.tp.val = TypeEnd))

/-- The bytes of a complete item. -/
def ItemRecord.bytes (x : ItemRecord) : List Byte :=
  (x.fields.map Record.bytes).flatten ++ x.last.bytes

/-- The last field of type `t` among the fields of an item record, if any. -/
def ItemRecord.lastOfType (x : ItemRecord) (t : FieldType) : Option Field :=
  (x.fields.reverse.find? (fun f => f.tp.val = t)).map Record.field

/-- The `Item` of an item record: its fields entered into the map one after the
other. -/
def ItemRecord.item (x : ItemRecord) : Item :=
  x.fields.foldl (fun i f => i.set f.field) ⟨[]⟩

/-- The title payload of an item, empty when it has no title field. -/
def Item.titlePayload (i : Item) : List Byte :=
  match i.get TypeTitle with
  | some t => t.data
  | none => []

/-- An item record with two title fields, `"a"` then `"b"`, and a field of the
unrecognised type 0x42. -/
def sampleItemRecord : ItemRecord where
  fields :=
    [⟨3, [97], List.replicate 10 0⟩, ⟨66, [1, 2], List.replicate 9 0⟩,
      ⟨3, [98], List.replicate 10 0⟩]
  last := ⟨255, [], List.replicate 11 0⟩

/-- An empty item record: the end-of-record field alone. -/
def emptyItemRecord : ItemRecord where
  fields := []
  last := ⟨255, [], List.replicate 11 0⟩

/-- The ShellSort pass with gap 6 that `sort.Sort` of Go up to 1.18 runs on a
slice of at most 12 elements before its insertion sort, on the first six
elements `as` and the elements `bs` after them: `data[i]` and `data[i-6]` are
swapped when `Less(i, i-6)`. -/
def shellSwap : List Item → List Item → List Item × List Item
  | a :: as, b :: bs =>
    let rest := shellSwap as bs
    if ByName.Less b a then (b :: rest.1, a :: rest.2) else (a :: rest.1, b :: rest.2)
  | as, [] => (as, [])
  | [], bs => ([], bs)

/-- The slice after the ShellSort pass with gap 6. -/
def shellPass (l : List Item) : List Item :=
  (shellSwap (l.take 6) (l.drop 6)).1 ++ (shellSwap (l.take 6) (l.drop 6)).2

/-- The library of `testLib` with the `sort.Sort` of Go up to 1.18 as it runs on
slices of at most 12 elements: the ShellSort pass with gap 6, then insertion
sort. -/
def shellLib : Lib where
  sha256 := testLib.sha256
  hmacSHA256 := testLib.hmacSHA256
  twofishDecrypt := testLib.twofishDecrypt
  sortByName l := List.insertionSort (fun a b => ByName.Less b a = false) (shellPass l)

/-- The record of an entry with a one-byte title and a one-byte username. -/
def entryRecord (title user : Byte) : ItemRecord where
  fields := [⟨3, [title], List.replicate 10 0⟩, ⟨4, [user], List.replicate 10 0⟩]
  last := ⟨255, [], List.replicate 11 0⟩

/-- The item of `entryRecord title user`. -/
def entryItem (title user : Byte) : Item :=
  ⟨[⟨4, [user]⟩, ⟨3, [title]⟩]⟩

/-- A cleartext of an empty header and seven entries titled `b, a, c, d, e, f, a`;
the two entries titled `a` have the usernames `1` and `2`, in this order. -/
def tieStream : List Byte :=
  ([emptyItemRecord, entryRecord 98 48, entryRecord 97 49, entryRecord 99 48,
    entryRecord 100 48, entryRecord 101 48, entryRecord 102 48, entryRecord 97 50].map
      ItemRecord.bytes).flatten

/-- The Keychain that `parseItems` leaves on `tieStream` when the sort is stable:
the entries in the order `a, a, b, c, d, e, f`, the two titled `a` in parse
order. -/
def tieKeychain : Keychain :=
  { emptyKeychain with
    Header := some ⟨[]⟩
    Items := [entryItem 97 49, entryItem 97 50, entryItem 98 48, entryItem 99 48,
      entryItem 100 48, entryItem 101 48, entryItem 102 48] }

/-! ## Find and its caller -/

/-- Package `regexp` as far as `Find` uses it: whether a pattern compiles, and
whether a pattern that compiles matches a string. -/
structure Regexp where
  compiles : List Byte → Bool
  isMatch : List Byte → List Byte → Bool

/-- `regexp.MatchString(pattern, s)`: `none` is the error for a pattern that
does not compile. -/
def Regexp.MatchString (R : Regexp) (pattern s : List Byte) : Option Bool :=
  if R.compiles pattern then some (R.isMatch pattern s) else none

/-- How the goroutine of `Find` ends: it closes the channel, or it panics. -/
inductive FindEnd where
  | closed
  | panic
  deriving DecidableEq, Repr

/-- The `for _, f := range c.Items` loop in the goroutine of `Find`: the items
sent on the channel, in order, and how the goroutine ends.  The receiver is
taken to drain the channel, as `range` over it does. -/
def Find.loop (R : Regexp) (re : List Byte) : List Item → List Item × FindEnd
  | [] => ([], .closed)
  | f :: rest =>
    match R.MatchString re f.String with
    | none => ([], .panic)
    | some matched =>
      let out := Find.loop R re rest
      if matched then (f :: out.1, out.2) else out

/-- `(*Keychain).Find`. -/
def Find (R : Regexp) (c : Keychain) (re : List Byte) : List Item × FindEnd :=
  Find.loop R re c.Items

/-- The flag `"(?i)"`. -/
def flagI : List Byte := [40, 63, 105, 41]

/-- `argsToRE` of main.go: `"(?i)" + strings.Join(args[1:], " ")`, for the
argument lists main calls it on, which hold the command at index 0. -/
def argsToRE (args : List (List Byte)) : List Byte :=
  flagI ++ List.intercalate [32] (args.drop 1)

/-- ASCII lower case of a byte. -/
def toLower (b : Byte) : Byte :=
  if 65 ≤ b.val ∧ b.val ≤ 90 then b + 32 else b

/-- ASCII lower case of a string. -/
def lower (s : List Byte) : List Byte :=
  s.map toLower

/-- A literal pattern: ASCII letters, digits and spaces only. -/
def isLiteral (p : List Byte) : Bool :=
  p.all (fun b => (48 ≤ b.val ∧ b.val ≤ 57) ∨ (65 ≤ b.val ∧ b.val ≤ 90) ∨
    (97 ≤ b.val ∧ b.val ≤ 122) ∨ b.val = 32)

/-- What package `regexp` documents for literal patterns: they compile, with or
without the flag `(?i)` in front; without the flag they match exactly the
strings that contain them; with the flag they match every string that contains
them up to ASCII letter case. -/
structure Regexp.Contract (R : Regexp) : Prop where
  literal_compiles : ∀ p, isLiteral p = true →
    R.compiles p = true ∧ R.compiles (flagI ++ p) = true
  literal_match : ∀ p s, isLiteral p = true → (R.isMatch p s = true ↔ p <:+: s)
  fold_match : ∀ p s, isLiteral p = true → lower p <:+: lower s →
    R.isMatch (flagI ++ p) s = true

/-- Whether `p` occurs in `s`. -/
def occurs (s p : List Byte) : Bool :=
  (Index s p).isSome

/-- A small instance of `Regexp` that agrees with Go's on literal patterns, with
or without `(?i)` in front, and on the pattern `"("`, which does not compile. -/
def testRegexp : Regexp where
  compiles re := decide (re ≠ [40])
  isMatch re s :=
    if startsWith re flagI then occurs (lower s) (lower (re.drop 4)) else occurs s re

/-- An item with a title and nothing else. -/
def namedItem (title : List Byte) : Item :=
  ⟨[⟨3, title⟩]⟩

/-- An unlocked Keychain with the entries `"Test Four"` and `"Test Two"`. -/
def unlockedKeychain : Keychain :=
  { emptyKeychain with
    Header := some ⟨[]⟩
    Items := [namedItem [84, 101, 115, 116, 32, 70, 111, 117, 114],
      namedItem [84, 101, 115, 116, 32, 84, 119, 111]] }

/-- An unlocked Keychain with no entries. -/
def unlockedEmpty : Keychain :=
  { emptyKeychain with Header := some ⟨[]⟩ }

/-! ## The library instance meets the contract -/

theorem stringLess_irrefl (s : List Byte) : stringLess s s = false := by
  induction s with
  | nil => rfl
  | cons a s ih => simp [stringLess, ih]

theorem stringLess_asymm (s t : List Byte) (h : stringLess s t = true) :
    stringLess t s = false := by
  induction s generalizing t with
  | nil => cases t <;> simp_all [stringLess]
  | cons a s ih =>
    cases t with
    | nil => simp_all [stringLess]
    | cons b t =>
      simp only [stringLess, Bool.or_eq_true, decide_eq_true_eq, Bool.and_eq_true] at h
      simp only [stringLess, Bool.or_eq_false_iff, decide_eq_false_iff_not,
        Bool.and_eq_false_imp, decide_eq_true_eq]
      rcases h with h | ⟨h1, h2⟩
      · exact ⟨lt_asymm h, fun e => absurd h (e ▸ lt_irrefl _)⟩
      · subst h1
        exact ⟨lt_irrefl _, fun _ => ih t h2⟩

theorem stringLess_negTrans (s t u : List Byte) (h1 : stringLess t s = false)
    (h2 : stringLess u t = false) : stringLess u s = false := by
  induction s generalizing t u with
  | nil =>
    cases t with
    | nil => exact h2
    | cons b t => cases u <;> simp [stringLess] at h2 ⊢
  | cons a s ih =>
    cases u with
    | nil =>
      cases t with
      | nil => simp [stringLess] at h1
      | cons b t => simp [stringLess] at h2
    | cons c u =>
      cases t with
      | nil => simp [stringLess] at h1
      | cons b t =>
        simp only [stringLess, Bool.or_eq_false_iff, decide_eq_false_iff_not,
          Bool.and_eq_false_imp, decide_eq_true_eq] at h1 h2 ⊢
        have hab : a ≤ b := not_lt.mp h1.1
        have hbc : b ≤ c := not_lt.mp h2.1
        refine ⟨not_lt.mpr (le_trans hab hbc), fun e => ?_⟩
        subst e
        have hb : b = c := le_antisymm hbc hab
        exact ih t u (h1.2 hb) (h2.2 hb.symm)

theorem testLib_contract : testLib.Contract where
  sha256_size := fun _ => by simp [testLib]
  hmac_size := fun _ _ => by simp [testLib]
  twofish_size := fun _ _ h => by simpa [testLib] using h
  sort_perm := fun l => List.perm_insertionSort _ l
  sort_sorted := fun l => by
    haveI : IsTotal Item (fun a b => ByName.Less b a = false) :=
      ⟨fun a b => by
        cases h : ByName.Less b a
        · exact Or.inl rfl
        · exact Or.inr (stringLess_asymm _ _ h)⟩
    haveI : IsTrans Item (fun a b => ByName.Less b a = false) :=
      ⟨fun a b c h1 h2 => stringLess_negTrans _ _ _ h1 h2⟩
    exact List.sorted_insertionSort _ l

/-! ## Readers and fields -/

theorem ReadFull_ok (r : List Byte) (n : Nat) (h : n ≤ r.length) :
    ReadFull r n = (.ok (r.take n), r.drop n) := by
  simp [ReadFull, h]

theorem ReadFull_short (r : List Byte) (n : Nat) (h : r.length < n) :
    ReadFull r n = (.error (if r.length = 0 then .EOF else .ErrUnexpectedEOF), []) := by
  unfold ReadFull
  rw [if_neg (by omega)]
  split <;> rfl

theorem Uint32_le32 (n : Nat) (h : n < 2 ^ 32) : Uint32 (le32 n) = n := by
  simp [Uint32, le32, Fin.ofNat]
  omega

theorem ReadField_ok (r : List Byte) (mac : Hash) (h4 : 4 ≤ r.length)
    (h : 5 + Uint32 (r.take 4) ≤ r.length) :
    ReadField r mac =
      (.ok ⟨((r.drop 4).getD 0 0).val, (r.drop 5).take (Uint32 (r.take 4))⟩,
        r.drop (5 + Uint32 (r.take 4) + (16 - (5 + Uint32 (r.take 4)) % 16) % 16),
        mac.Write ((r.drop 5).take (Uint32 (r.take 4)))) := by
  unfold ReadField
  rw [ReadFull_ok r 4 h4]
  simp only
  rw [ReadFull_ok (r.drop 4) 1 (by simp; omega)]
  simp only
  rw [ReadFull_ok ((r.drop 4).drop 1) _ (by simp; omega)]
  simp only [List.drop_drop, CopyNDiscard]
  have e1 : (List.take 1 (List.drop 4 r)).getD 0 0 = (List.drop 4 r).getD 0 0 := by
    cases List.drop 4 r <;> simp
  rw [e1]
  generalize Uint32 (List.take 4 r) = ln at *
  have e2 : (5 + ln) % 2 ^ 32 % 16 = (5 + ln) % 16 := by omega
  have e3 : 4 + 1 + ln = 5 + ln := by omega
  rw [e2, e3]
  by_cases hp : (5 + ln) % 16 = 0
  · simp [hp]
  · have e4 : (16 - (5 + ln) % 16) % 16 = 16 - (5 + ln) % 16 := by omega
    simp [hp, e4]

theorem ReadField_nil (mac : Hash) : ReadField [] mac = (.error .EOF, [], mac) := by
  rfl

theorem ReadField_short_length (r : List Byte) (mac : Hash) (h0 : r ≠ [])
    (h : r.length < 4) :
    ReadField r mac = (.error (.cantReadItemLength .ErrUnexpectedEOF), [], mac) := by
  have hl : r.length ≠ 0 := by
    cases r <;> simp_all
  unfold ReadField
  rw [ReadFull_short r 4 h]
  simp [hl]

theorem ReadField_short_tp (r : List Byte) (mac : Hash) (h : r.length = 4) :
    ReadField r mac = (.error (.cantReadItemTp .EOF), [], mac) := by
  unfold ReadField
  rw [ReadFull_ok r 4 (by omega)]
  simp only
  rw [ReadFull_short (r.drop 4) 1 (by simp; omega)]
  simp [h]

theorem ReadField_short_data (r : List Byte) (mac : Hash) (h5 : 5 ≤ r.length)
    (h : r.length < 5 + Uint32 (r.take 4)) :
    ReadField r mac =
      (.error (.cantReadItemData (if r.length = 5 then .EOF else .ErrUnexpectedEOF)), [],
        mac) := by
  unfold ReadField
  rw [ReadFull_ok r 4 (by omega)]
  simp only
  rw [ReadFull_ok (r.drop 4) 1 (by simp; omega)]
  simp only
  rw [ReadFull_short ((r.drop 4).drop 1) _ (by simp; omega)]
  have : ((r.drop 4).drop 1).length = 0 ↔ r.length = 5 := by
    simp; omega
  simp only [this]

/-- Every `ReadField` call either fails, leaving the HMAC as it was and the
reader drained, or delivers a field, having consumed at least 5 bytes and
written the payload to the HMAC; which of the two, the field and the rest of
the stream do not depend on the HMAC. -/
theorem ReadField_cases (r : List Byte) :
    (∃ e, ∀ mac, ReadField r mac = (.error e, [], mac)) ∨
    (∃ f r1, r1.length + 5 ≤ r.length ∧
      ∀ mac, ReadField r mac = (.ok f, r1, mac.Write f.data)) := by
  by_cases h0 : r = []
  · subst h0
    exact Or.inl ⟨_, fun mac => ReadField_nil mac⟩
  by_cases h4 : r.length < 4
  · exact Or.inl ⟨_, fun mac => ReadField_short_length r mac h0 h4⟩
  by_cases h4e : r.length = 4
  · exact Or.inl ⟨_, fun mac => ReadField_short_tp r mac h4e⟩
  by_cases hd : r.length < 5 + Uint32 (r.take 4)
  · exact Or.inl ⟨_, fun mac => ReadField_short_data r mac (by omega) hd⟩
  · refine Or.inr ⟨_, _, ?_, fun mac => ReadField_ok r mac (by omega) (by omega)⟩
    simp only [List.length_drop]
    omega

/-- C4. Field padding round trip: for a type byte `t`, a payload `p` of at most
10000 bytes, padding bytes `pad` of the length `(16 - (5 + L) mod 16) mod 16` and
any trailing bytes `s`, `ReadField` on `LE32(L) ++ [t] ++ p ++ pad ++ s` returns the
field with type `t` and payload `p`, leaves exactly `s` unread, and the bytes
consumed are `5 + L + padding` many. -/
theorem ReadField_roundtrip (t : Byte) (p pad s : List Byte) (mac : Hash)
    (hL : p.length ≤ 10000) (hpad : pad.length = (16 - (5 + p.length) % 16) % 16) :
    ReadField (le32 p.length ++ [t] ++ p ++ pad ++ s) mac = (.ok ⟨t.val, p⟩, s, mac.Write p)
    ∧ (le32 p.length ++ [t] ++ p ++ pad).length
        = 5 + p.length + (16 - (5 + p.length) % 16) % 16 := by
  have hlen : (le32 p.length).length = 4 := rfl
  have htake : (le32 p.length ++ [t] ++ p ++ pad ++ s).take 4 = le32 p.length := by
    simp [List.append_assoc, List.take_append_eq_append_take, hlen]
  have hu : Uint32 ((le32 p.length ++ [t] ++ p ++ pad ++ s).take 4) = p.length := by
    rw [htake, Uint32_le32 _ (by omega)]
  constructor
  · rw [ReadField_ok _ _ (by simp; omega) (by rw [hu]; simp; omega), hu]
    have hstream : le32 p.length ++ [t] ++ p ++ pad ++ s
        = le32 p.length ++ (t :: (p ++ (pad ++ s))) := by
      simp [List.append_assoc]
    have hstream5 : le32 p.length ++ [t] ++ p ++ pad ++ s
        = (le32 p.length ++ [t]) ++ (p ++ (pad ++ s)) := by
      simp [List.append_assoc]
    have hstreamAll : le32 p.length ++ [t] ++ p ++ pad ++ s
        = (le32 p.length ++ [t] ++ p ++ pad) ++ s := by
      simp [List.append_assoc]
    have d4 : (le32 p.length ++ [t] ++ p ++ pad ++ s).drop 4 = t :: (p ++ (pad ++ s)) := by
      rw [hstream]; exact List.drop_left' hlen
    have d5 : (le32 p.length ++ [t] ++ p ++ pad ++ s).drop 5 = p ++ (pad ++ s) := by
      rw [hstream5]; exact List.drop_left' (by simp [hlen])
    have dall : (le32 p.length ++ [t] ++ p ++ pad ++ s).drop
        (5 + p.length + (16 - (5 + p.length) % 16) % 16) = s := by
      rw [hstreamAll]; exact List.drop_left' (by simp [hlen, hpad]; omega)
    rw [d4, d5, dall]
    simp
  · simp [hlen, hpad]; omega

/-- A title field `"ab"` with its 9 padding bytes, followed by two more bytes, is
read back as type 3 with payload `"ab"`, and the two bytes stay unread. -/
theorem ReadField_roundtrip_witness :
    ReadField (le32 2 ++ [3] ++ [97, 98] ++ List.replicate 9 0 ++ [7, 7]) ⟨none, []⟩
      = (.ok ⟨3, [97, 98]⟩, [7, 7], ⟨none, [97, 98]⟩)
    ∧ (le32 2 ++ [3] ++ [97, 98] ++ List.replicate 9 0).length = 5 + 2 + 9 :=
  ReadField_roundtrip 3 [97, 98] (List.replicate 9 0) [7, 7] ⟨none, []⟩ (by decide)
    (by decide)

/-- C5. `ReadField` returns the bare `io.EOF` exactly when no bytes remain; on
a stream that is not empty but ends before the 4 length bytes, the type byte and
the declared payload are complete, it returns an error other than `io.EOF` (and
so no field). -/
theorem ReadField_eof_iff_empty (r : List Byte) (mac : Hash) :
    ((ReadField r mac).1 = .error .EOF ↔ r = []) ∧
    (r ≠ [] → (r.length < 4 ∨ r.length < 5 + Uint32 (r.take 4)) →
      ∃ e, (ReadField r mac).1 = .error e ∧ e ≠ .EOF) := by
  have key : r ≠ [] → (r.length < 4 ∨ r.length < 5 + Uint32 (r.take 4)) →
      ∃ e, (ReadField r mac).1 = .error e ∧ e ≠ .EOF := by
    intro h0 hshort
    by_cases h4 : r.length < 4
    · exact ⟨_, by rw [ReadField_short_length r mac h0 h4], by simp⟩
    by_cases h4e : r.length = 4
    · exact ⟨_, by rw [ReadField_short_tp r mac h4e], by simp⟩
    · exact ⟨_, by rw [ReadField_short_data r mac (by omega) (by omega)], by simp⟩
  refine ⟨⟨fun h => ?_, fun h => by subst h; rfl⟩, key⟩
  by_contra h0
  by_cases hshort : r.length < 4 ∨ r.length < 5 + Uint32 (r.take 4)
  · obtain ⟨e, he, hne⟩ := key h0 hshort
    rw [he] at h
    exact hne (by injection h)
  · rw [ReadField_ok r mac (by omega) (by omega)] at h
    simp at h

/-- A stream holding a length prefix of 1, a type byte and no payload byte is
rejected with an error other than `io.EOF`. -/
theorem ReadField_eof_iff_empty_witness :
    ∃ e, (ReadField [1, 0, 0, 0, 3] ⟨none, []⟩).1 = .error e ∧ e ≠ .EOF :=
  (ReadField_eof_iff_empty [1, 0, 0, 0, 3] ⟨none, []⟩).2 (by decide) (by decide)

/-! ## Key stretching -/

theorem strechPassword_loop_sum (P : Lib) (n : Nat) (h : Hash) (hk : h.key = none) :
    (strechPassword.loop P n h).Sum P = P.sha256^[n + 1] h.written := by
  induction n generalizing h with
  | zero => simp [strechPassword.loop, Hash.Sum, hk]
  | succ n ih =>
    rw [strechPassword.loop, ih _ (by simp [Hash.Write, Hash.Reset, hk])]
    simp [Hash.Write, Hash.Reset, Hash.Sum, hk]

theorem stretchRef_iterate (P : Lib) (pwd salt : List Byte) (n : Nat) :
    stretchRef P pwd salt n = P.sha256^[n + 1] (pwd ++ salt) := by
  induction n with
  | zero => rfl
  | succ n ih => rw [stretchRef, ih, ← Function.iterate_succ_apply' P.sha256]

theorem strechPassword_iterate (P : Lib) (pwd salt : List Byte) (n : Nat) :
    strechPassword P pwd salt n = P.sha256^[n + 1] (pwd ++ salt) := by
  unfold strechPassword
  simp only
  rw [strechPassword_loop_sum P n _ (by simp [Hash.Write])]
  simp [Hash.Write]

theorem strechPassword_length (P : Lib) (pwd salt : List Byte) (n : Nat)
    (hsize : ∀ m, (P.sha256 m).length = 32) : (strechPassword P pwd salt n).length = 32 := by
  rw [strechPassword_iterate, Function.iterate_succ_apply']
  exact hsize _

/-- C10. Key stretching equals its reference definition for every password,
salt and iteration count, `0` included: `strechPassword` returns `h n` with
`h 0 = SHA256(password ++ salt)` and `h (i + 1) = SHA256(h i)`, so SHA-256 is
applied `n + 1` times; with 32-byte digests the result has 32 bytes.  The result
is a function of password, salt and count (and of the hash) alone. -/
theorem strechPassword_eq_stretchRef (P : Lib) (pwd salt : List Byte) (n : Nat)
    (hsize : ∀ m, (P.sha256 m).length = 32) :
    strechPassword P pwd salt n = stretchRef P pwd salt n
    ∧ strechPassword P pwd salt n = P.sha256^[n + 1] (pwd ++ salt)
    ∧ (strechPassword P pwd salt n).length = 32 := by
  refine ⟨?_, strechPassword_iterate P pwd salt n, strechPassword_length P pwd salt n hsize⟩
  rw [strechPassword_iterate, stretchRef_iterate]

/-- With the sample library, stretching `"pw"` with a one-byte salt three times
gives the reference value. -/
theorem strechPassword_eq_stretchRef_witness :
    strechPassword testLib samplePassword [9] 3 = stretchRef testLib samplePassword [9] 3
    ∧ strechPassword testLib samplePassword [9] 3
        = testLib.sha256^[3 + 1] (samplePassword ++ [9])
    ∧ (strechPassword testLib samplePassword [9] 3).length = 32 :=
  strechPassword_eq_stretchRef testLib samplePassword [9] 3 testLib_contract.sha256_size

/-! ## The container parser -/

theorem startsWith_iff (s sep : List Byte) : startsWith s sep = true ↔ sep <+: s := by
  induction sep generalizing s with
  | nil => cases s <;> simp [startsWith]
  | cons b sep ih =>
    cases s with
    | nil => simp [startsWith]
    | cons a s =>
      simp only [startsWith, Bool.and_eq_true, decide_eq_true_eq, ih, List.cons_prefix_cons]
      constructor
      · rintro ⟨h1, h2⟩; exact ⟨h1.symm, h2⟩
      · rintro ⟨h1, h2⟩; exact ⟨h1.symm, h2⟩

theorem Index_eq_some_iff (s sep : List Byte) (n : Nat) :
    Index s sep = some n ↔ FirstOccurrence s sep n := by
  induction s generalizing n with
  | nil =>
    unfold Index FirstOccurrence
    by_cases h : startsWith [] sep = true
    · have hp := (startsWith_iff [] sep).1 h
      simp only [h, if_true, Option.some.injEq, List.drop_nil, List.length_nil,
        Nat.le_zero_eq]
      constructor
      · intro e; subst e; exact ⟨hp, rfl, fun j hj => absurd hj (Nat.not_lt_zero j)⟩
      · intro e; exact e.2.1.symm
    · have hp : ¬ sep <+: [] := fun hp => h ((startsWith_iff [] sep).2 hp)
      simp [h, hp]
  | cons a s ih =>
    unfold Index
    by_cases h : startsWith (a :: s) sep = true
    · have hp := (startsWith_iff (a :: s) sep).1 h
      simp only [h, if_true, Option.some.injEq]
      constructor
      · intro e; subst e
        exact ⟨by simpa using hp, Nat.zero_le _, fun j hj => absurd hj (Nat.not_lt_zero j)⟩
      · intro e
        by_contra hn
        exact e.2.2 0 (Nat.pos_of_ne_zero (fun h0 => hn h0.symm)) (by simpa using hp)
    · have hp : ¬ sep <+: a :: s := fun hp => h ((startsWith_iff _ sep).2 hp)
      simp only [h, Bool.false_eq_true, if_false, Option.map_eq_some']
      constructor
      · rintro ⟨m, hm, rfl⟩
        obtain ⟨h1, h2, h3⟩ := (ih m).1 hm
        refine ⟨by simpa using h1, by simpa using h2, fun j hj => ?_⟩
        cases j with
        | zero => simpa using hp
        | succ k => simpa using h3 k (by omega)
      · rintro ⟨h1, h2, h3⟩
        cases n with
        | zero => exact absurd (by simpa using h1) hp
        | succ m =>
          refine ⟨m, (ih m).2 ⟨by simpa using h1, by simpa using h2, fun j hj => ?_⟩, rfl⟩
          simpa using h3 (j + 1) (by omega)

theorem Index_eq_none_iff (s sep : List Byte) :
    Index s sep = none ↔ ∀ n, ¬ sep <+: s.drop n := by
  induction s with
  | nil =>
    unfold Index
    by_cases h : startsWith [] sep = true
    · have hp := (startsWith_iff [] sep).1 h
      simp only [h, if_true]
      constructor
      · intro e; cases e
      · intro e; exact absurd (by simpa using hp) (e 0)
    · have hp : ¬ sep <+: [] := fun hp => h ((startsWith_iff [] sep).2 hp)
      simp [h, hp]
  | cons a s ih =>
    unfold Index
    by_cases h : startsWith (a :: s) sep = true
    · have hp := (startsWith_iff (a :: s) sep).1 h
      simp only [h, if_true]
      constructor
      · intro e; cases e
      · intro e; exact absurd (by simpa using hp) (e 0)
    · have hp : ¬ sep <+: a :: s := fun hp => h ((startsWith_iff _ sep).2 hp)
      simp only [h, Bool.false_eq_true, if_false, Option.map_eq_none', ih]
      constructor
      · intro e n
        cases n with
        | zero => simpa using hp
        | succ k => simpa using e k
      · intro e n
        simpa using e (n + 1)

theorem occurs_iff_drop (s sep : List Byte) :
    sep <:+: s ↔ ∃ n, sep <+: s.drop n := by
  constructor
  · rintro ⟨pre, post, rfl⟩
    refine ⟨pre.length, ?_⟩
    rw [List.append_assoc, List.drop_left]
    exact List.prefix_append _ _
  · rintro ⟨n, post, h⟩
    refine ⟨s.take n, post, ?_⟩
    rw [List.append_assoc, h, List.take_append_drop]

theorem parseFile_header (f spare : List Byte) (h152 : 152 ≤ f.length)
    (htag : f.take 4 = tagPWS3) :
    parseFile f spare =
      match Index (f.drop 152) eofMarker with
      | none => some (.error .eofMarkerNotFound)
      | some eof =>
        if ((f.drop 152).take eof).length % 16 ≠ 0 then some (.error .notBlockAligned)
        else if eof + 16 + 32 ≤ (f.drop 152).length + spare.length then
          some (.ok
            { salt := (f.drop 4).take 32, pwd := (f.drop 40).take 32,
              b12 := (f.drop 72).take 32, b34 := (f.drop 104).take 32,
              iv := (f.drop 136).take 16, iter := Uint32 ((f.drop 36).take 4),
              data := (f.drop 152).take eof,
              mac := ((f.drop 152 ++ spare).drop (eof + 16)).take 32,
              Header := none, Items := [] })
        else none := by
  unfold parseFile
  rw [ReadFull_ok f 4 (by omega)]
  simp only [htag, ne_eq, not_true_eq_false, if_false]
  rw [ReadFull_ok (f.drop 4) 32 (by simp; omega)]
  simp only [List.drop_drop]
  rw [ReadFull_ok (f.drop (4 + 32)) 4 (by simp; omega)]
  simp only [List.drop_drop]
  rw [ReadFull_ok (f.drop (4 + 32 + 4)) 32 (by simp; omega)]
  simp only [List.drop_drop]
  rw [ReadFull_ok (f.drop (4 + 32 + 4 + 32)) 32 (by simp; omega)]
  simp only [List.drop_drop]
  rw [ReadFull_ok (f.drop (4 + 32 + 4 + 32 + 32)) 32 (by simp; omega)]
  simp only [List.drop_drop]
  rw [ReadFull_ok (f.drop (4 + 32 + 4 + 32 + 32 + 32)) 16 (by simp; omega)]
  simp only [List.drop_drop]

theorem parseFile_reject_header (f spare : List Byte)
    (h : f.length < 152 ∨ f.take 4 ≠ tagPWS3) :
    ∃ e, parseFile f spare = some (.error e) := by
  unfold parseFile
  by_cases h1 : 4 ≤ f.length
  swap
  · rw [ReadFull_short f 4 (by omega)]; exact ⟨_, rfl⟩
  rw [ReadFull_ok f 4 h1]
  simp only
  by_cases htag : f.take 4 = tagPWS3
  swap
  · simp only [htag, ne_eq, not_false_eq_true, if_true]; exact ⟨_, rfl⟩
  simp only [htag, ne_eq, not_true_eq_false, if_false]
  have hlen : f.length < 152 := by
    rcases h with h | h
    · exact h
    · exact absurd htag h
  by_cases h2 : 32 ≤ (f.drop 4).length
  swap
  · rw [ReadFull_short _ 32 (by omega)]; exact ⟨_, rfl⟩
  rw [ReadFull_ok _ 32 h2]
  simp only [List.drop_drop]
  by_cases h3 : 4 ≤ (f.drop (4 + 32)).length
  swap
  · rw [ReadFull_short _ 4 (by omega)]; exact ⟨_, rfl⟩
  rw [ReadFull_ok _ 4 h3]
  simp only [List.drop_drop]
  by_cases h4 : 32 ≤ (f.drop (4 + 32 + 4)).length
  swap
  · rw [ReadFull_short _ 32 (by omega)]; exact ⟨_, rfl⟩
  rw [ReadFull_ok _ 32 h4]
  simp only [List.drop_drop]
  by_cases h5 : 32 ≤ (f.drop (4 + 32 + 4 + 32)).length
  swap
  · rw [ReadFull_short _ 32 (by omega)]; exact ⟨_, rfl⟩
  rw [ReadFull_ok _ 32 h5]
  simp only [List.drop_drop]
  by_cases h6 : 32 ≤ (f.drop (4 + 32 + 4 + 32 + 32)).length
  swap
  · rw [ReadFull_short _ 32 (by omega)]; exact ⟨_, rfl⟩
  rw [ReadFull_ok _ 32 h6]
  simp only [List.drop_drop]
  have h7 : (f.drop (4 + 32 + 4 + 32 + 32 + 32)).length < 16 := by
    simp only [List.length_drop]; omega
  rw [ReadFull_short _ 16 h7]
  exact ⟨_, rfl⟩

/-- The layout of every Keychain that `parseFile` returns: the header fields sit
at their fixed offsets, the ciphertext runs from offset 152 to the first
occurrence of the marker, which is block-aligned, and `mac` is the 32 bytes that
follow the marker in the slice's backing array. -/
theorem parseFile_layout (f spare : List Byte) (c : Keychain)
    (h : parseFile f spare = some (.ok c)) :
    152 ≤ f.length ∧ f.take 4 = tagPWS3 ∧
    c.salt = (f.drop 4).take 32 ∧ c.iter = Uint32 ((f.drop 36).take 4) ∧
    c.pwd = (f.drop 40).take 32 ∧ c.b12 = (f.drop 72).take 32 ∧
    c.b34 = (f.drop 104).take 32 ∧ c.iv = (f.drop 136).take 16 ∧
    c.Header = none ∧ c.Items = [] ∧
    ∃ n, FirstOccurrence (f.drop 152) eofMarker n ∧ n % 16 = 0 ∧
      c.data = (f.drop 152).take n ∧ c.data.length = n ∧
      n + 16 + 32 ≤ (f.drop 152).length + spare.length ∧
      c.mac = ((f.drop 152 ++ spare).drop (n + 16)).take 32 := by
  by_cases hbad : f.length < 152 ∨ f.take 4 ≠ tagPWS3
  · obtain ⟨e, he⟩ := parseFile_reject_header f spare hbad
    rw [he] at h
    simp at h
  have h152 : 152 ≤ f.length := by
    by_contra hc; exact hbad (Or.inl (by omega))
  have htag : f.take 4 = tagPWS3 := by
    by_contra hc; exact hbad (Or.inr hc)
  rw [parseFile_header f spare h152 htag] at h
  cases hidx : Index (f.drop 152) eofMarker with
  | none => rw [hidx] at h; simp at h
  | some n =>
    rw [hidx] at h
    simp only at h
    have hfirst := (Index_eq_some_iff _ _ _).1 hidx
    have hlen : ((f.drop 152).take n).length = n := by
      rw [List.length_take]; exact Nat.min_eq_left hfirst.2.1
    by_cases hal : ((f.drop 152).take n).length % 16 ≠ 0
    · rw [if_pos hal] at h; simp at h
    rw [if_neg hal] at h
    by_cases hcap : n + 16 + 32 ≤ (f.drop 152).length + spare.length
    swap
    · rw [if_neg hcap] at h; simp at h
    rw [if_pos hcap] at h
    simp only [Option.some.injEq, Except.ok.injEq] at h
    subst h
    refine ⟨h152, htag, rfl, rfl, rfl, rfl, rfl, rfl, rfl, rfl, n, hfirst, ?_, rfl, hlen,
      hcap, rfl⟩
    rw [hlen] at hal
    omega

/-- C7. `parseFile` rejects malformed containers: it returns an error when the
first 4 bytes are not `"PWS3"`, when fewer than 152 bytes are present, when the
marker `"PWS3-EOFPWS3-EOF"` does not occur after offset 152, and when the first
occurrence of the marker after offset 152 is at a distance that is not a
multiple of 16; every Keychain it returns has a ciphertext of a length divisible
by 16. -/
theorem parseFile_rejects (f spare : List Byte) :
    (f.take 4 ≠ tagPWS3 → ∃ e, parseFile f spare = some (.error e)) ∧
    (f.length < 152 → ∃ e, parseFile f spare = some (.error e)) ∧
    (¬ eofMarker <:+: f.drop 152 → ∃ e, parseFile f spare = some (.error e)) ∧
    (∀ n, FirstOccurrence (f.drop 152) eofMarker n → n % 16 ≠ 0 →
      ∃ e, parseFile f spare = some (.error e)) ∧
    (∀ c, parseFile f spare = some (.ok c) → c.data.length % 16 = 0) := by
  refine ⟨fun h => parseFile_reject_header f spare (Or.inr h),
    fun h => parseFile_reject_header f spare (Or.inl h), ?_, ?_, ?_⟩
  · intro hno
    by_cases hbad : f.length < 152 ∨ f.take 4 ≠ tagPWS3
    · exact parseFile_reject_header f spare hbad
    rw [parseFile_header f spare (by omega) (by tauto)]
    have hidx : Index (f.drop 152) eofMarker = none := by
      rw [Index_eq_none_iff]
      intro n hn
      exact hno ((occurs_iff_drop _ _).2 ⟨n, hn⟩)
    rw [hidx]
    exact ⟨_, rfl⟩
  · intro n hfirst hal
    by_cases hbad : f.length < 152 ∨ f.take 4 ≠ tagPWS3
    · exact parseFile_reject_header f spare hbad
    rw [parseFile_header f spare (by omega) (by tauto)]
    rw [(Index_eq_some_iff _ _ _).2 hfirst]
    have hlen : ((f.drop 152).take n).length = n := by
      rw [List.length_take]; exact Nat.min_eq_left hfirst.2.1
    simp only
    rw [if_pos (by rw [hlen]; exact hal)]
    exact ⟨_, rfl⟩
  · intro c hc
    obtain ⟨_, _, _, _, _, _, _, _, _, _, n, _, hal, _, hlen, _⟩ :=
      parseFile_layout f spare c hc
    rw [hlen]; exact hal

/-- A 4-byte file with a wrong tag is rejected. -/
theorem parseFile_rejects_witness : ∃ e, parseFile [1, 2, 3, 4] [] = some (.error e) :=
  (parseFile_rejects [1, 2, 3, 4] []).1 (by decide)

set_option maxRecDepth 100000 in
/-- C8, at the failing input.  On the 168-byte file that ends with the marker,
`parseFile` returns no error for any state of the backing array: when fewer than
32 spare bytes lie past the slice the slice expression for `mac` panics, and
otherwise `parseFile` succeeds with a `mac` made of those 32 spare bytes, none
of which is part of the file. -/
theorem parseFile_shortFile (spare : List Byte) :
    parseFile shortFile spare =
      (if 32 ≤ spare.length then
        some (.ok
          { salt := List.replicate 32 0, pwd := List.replicate 32 0,
            b12 := List.replicate 32 0, b34 := List.replicate 32 0,
            iv := List.replicate 16 0, iter := 0, data := [],
            mac := spare.take 32, Header := none, Items := [] })
      else none)
    ∧ shortFile.drop (152 + 16) = [] := by
  refine ⟨?_, by decide⟩
  rw [parseFile_header shortFile spare (by decide) (by decide)]
  have hidx : Index (shortFile.drop 152) eofMarker = some 0 := by decide
  have hdrop : shortFile.drop 152 = eofMarker := by decide
  rw [hidx]
  simp only [hdrop]
  have e1 : (List.drop 4 shortFile).take 32 = List.replicate 32 0 := by decide
  have e2 : (List.drop 40 shortFile).take 32 = List.replicate 32 0 := by decide
  have e3 : (List.drop 72 shortFile).take 32 = List.replicate 32 0 := by decide
  have e4 : (List.drop 104 shortFile).take 32 = List.replicate 32 0 := by decide
  have e5 : (List.drop 136 shortFile).take 16 = List.replicate 16 0 := by decide
  have e6 : Uint32 ((List.drop 36 shortFile).take 4) = 0 := by decide
  have e7 : (eofMarker ++ spare).drop (0 + 16) = spare :=
    List.drop_left' (by decide)
  have e8 : eofMarker.length = 16 := by decide
  rw [e1, e2, e3, e4, e5, e6, e7, e8]
  by_cases hs : 32 ≤ spare.length
  · rw [if_pos hs]
    simp
    omega
  · rw [if_neg hs]
    simp
    omega

set_option maxRecDepth 100000 in
/-- C9, at a failing input.  On the file that carries only the 3 bytes
`1, 2, 3` after the marker, read into a slice with 493 zero bytes of spare
capacity (a 512-byte buffer), `parseFile` succeeds and stores as HMAC those 3
bytes followed by 29 bytes that are not in the file. -/
theorem parseFile_mac_past_input :
    parseFile (shortFile ++ [1, 2, 3]) (List.replicate 493 0) =
      some (.ok
        { salt := List.replicate 32 0, pwd := List.replicate 32 0,
          b12 := List.replicate 32 0, b34 := List.replicate 32 0,
          iv := List.replicate 16 0, iter := 0, data := [],
          mac := [1, 2, 3] ++ List.replicate 29 0, Header := none, Items := [] })
    ∧ (shortFile ++ [1, 2, 3]).drop (152 + 16) = [1, 2, 3] := by
  decide

/-! ## The field stream and the running HMAC -/

theorem readFields_fuel (fuel fuel' : Nat) (r : List Byte) (h : r.length < fuel)
    (h' : r.length < fuel') : readFields fuel r = readFields fuel' r := by
  induction fuel generalizing fuel' r with
  | zero => omega
  | succ n ih =>
    cases fuel' with
    | zero => omega
    | succ m =>
      unfold readFields
      rcases ReadField_cases r with ⟨e, he⟩ | ⟨f, r1, hlen, hok⟩
      · rw [he]
      · rw [hok]
        simp only
        rw [ih m r1 (by omega) (by omega)]

theorem fieldPayloads_of_error (r : List Byte) (e : Error)
    (h : ∀ mac, ReadField r mac = (.error e, [], mac)) : fieldPayloads r = [] := by
  unfold fieldPayloads readFields
  rw [h]
  rfl

theorem fieldPayloads_nil : fieldPayloads [] = [] :=
  fieldPayloads_of_error [] _ ReadField_nil

theorem fieldPayloads_of_ok (r r1 : List Byte) (f : Field) (hlen : r1.length + 5 ≤ r.length)
    (h : ∀ mac, ReadField r mac = (.ok f, r1, mac.Write f.data)) :
    fieldPayloads r = f.data ++ fieldPayloads r1 := by
  unfold fieldPayloads
  rw [readFields, h]
  simp only [List.map_cons, List.flatten_cons]
  rw [readFields_fuel r.length (r1.length + 1) r1 (by omega) (by omega)]

/-- What one `ReadItem` pass does to the stream and the HMAC: the key stays, the
bytes written are the payloads of the fields read, an error leaves the reader
drained and an item costs at least 5 bytes. -/
theorem ReadItem_loop_mac (fuel : Nat) (i : Item) (r : List Byte) (mac : Hash)
    (res : Except Error Item) (r1 : List Byte) (mac1 : Hash)
    (h : ReadItem.loop fuel i r mac = some (res, r1, mac1)) :
    mac1.key = mac.key ∧
    mac1.written ++ fieldPayloads r1 = mac.written ++ fieldPayloads r ∧
    (∀ e, res = .error e → r1 = []) ∧
    (∀ it, res = .ok it → r1.length + 5 ≤ r.length) := by
  induction fuel generalizing i r mac with
  | zero => simp [ReadItem.loop] at h
  | succ n ih =>
    unfold ReadItem.loop at h
    rcases ReadField_cases r with ⟨e, he⟩ | ⟨f, r2, hlen, hok⟩
    · rw [he] at h
      simp only at h
      have hp := fieldPayloads_of_error r e he
      have hres : r1 = [] ∧ mac1 = mac ∧ ∃ e', res = .error e' := by
        split at h
        · simp only [Option.some.injEq, Prod.mk.injEq] at h
          exact ⟨h.2.1.symm, h.2.2.symm, _, h.1.symm⟩
        · simp only [Option.some.injEq, Prod.mk.injEq] at h
          exact ⟨h.2.1.symm, h.2.2.symm, _, h.1.symm⟩
      obtain ⟨hr, hm, e', he'⟩ := hres
      subst hr hm he'
      refine ⟨rfl, ?_, ?_, ?_⟩
      · rw [hp, fieldPayloads_nil]
      · intro _ _; rfl
      · intro it hit; cases hit
    · rw [hok] at h
      simp only at h
      have hp := fieldPayloads_of_ok r r2 f hlen hok
      split at h
      · simp only [Option.some.injEq, Prod.mk.injEq] at h
        obtain ⟨hres, hr, hm⟩ := h
        subst hr hm hres
        refine ⟨rfl, ?_, ?_, ?_⟩
        · rw [hp]; simp [Hash.Write]
        · intro e he'; cases he'
        · intro _ _; exact hlen
      · obtain ⟨h1, h2, h3, h4⟩ := ih _ _ _ h
        refine ⟨by rw [h1]; rfl, ?_, h3, ?_⟩
        · rw [h2, hp]; simp [Hash.Write]
        · intro it hit
          have := h4 it hit
          omega

/-- The item, the error and the rest of the stream that `ReadItem` delivers do
not depend on the HMAC it is given. -/
theorem ReadItem_loop_indep (fuel : Nat) (i : Item) (r : List Byte) (mac mac' : Hash) :
    (ReadItem.loop fuel i r mac).map (fun x => (x.1, x.2.1))
      = (ReadItem.loop fuel i r mac').map (fun x => (x.1, x.2.1)) := by
  induction fuel generalizing i r mac mac' with
  | zero => rfl
  | succ n ih =>
    unfold ReadItem.loop
    rcases ReadField_cases r with ⟨e, he⟩ | ⟨f, r2, hlen, hok⟩
    · rw [he mac, he mac']
      simp only
      split <;> rfl
    · rw [hok mac, hok mac']
      simp only
      split
      · rfl
      · exact ih _ _ _ _

theorem ReadItem_indep (r : List Byte) (mac mac' : Hash) (res : Except Error Item)
    (r1 : List Byte) (mac1 : Hash) (h : ReadItem r mac = some (res, r1, mac1)) :
    ∃ mac1', ReadItem r mac' = some (res, r1, mac1') := by
  have hi := ReadItem_loop_indep (r.length + 1) ⟨[]⟩ r mac mac'
  unfold ReadItem at h ⊢
  rw [h] at hi
  cases hx : ReadItem.loop (r.length + 1) ⟨[]⟩ r mac' with
  | none => rw [hx] at hi; simp at hi
  | some x =>
    rw [hx] at hi
    simp only [Option.map_some', Option.some.injEq, Prod.mk.injEq] at hi
    obtain ⟨x1, x2, x3⟩ := x
    simp only at hi
    exact ⟨x3, by rw [hi.1, hi.2]⟩

/-! ## parseItems -/

theorem readItems_of_ok (fuel : Nat) (r : List Byte) (mac : Hash) (i : Item) (r1 : List Byte)
    (mac1 : Hash) (h : ReadItem r mac = some (.ok i, r1, mac1)) :
    readItems (fuel + 1) r = i :: readItems fuel r1 := by
  obtain ⟨m, hm⟩ := ReadItem_indep r mac ⟨none, []⟩ _ _ _ h
  rw [readItems, hm]

theorem readItems_of_error (fuel : Nat) (r : List Byte) (mac : Hash) (e : Error)
    (r1 : List Byte) (mac1 : Hash) (h : ReadItem r mac = some (.error e, r1, mac1)) :
    readItems (fuel + 1) r = [] := by
  obtain ⟨m, hm⟩ := ReadItem_indep r mac ⟨none, []⟩ _ _ _ h
  rw [readItems, hm]

/-- The entry loop of `parseItems`, when it returns: the reader is drained, the
HMAC has taken in the payloads of all fields read, `Items` has grown by the
items read in stream order and nothing else in the Keychain has changed; the
loop ends on `io.EOF` or with a wrapped entry error. -/
theorem parseItems_loop_spec (fuel : Nat) (c : Keychain) (r : List Byte) (mac : Hash)
    (c1 : Keychain) (r1 : List Byte) (mac1 : Hash) (ret : Ret)
    (h : parseItems.loop fuel c r mac = (c1, r1, mac1, ret)) (hret : ret ≠ .hang) :
    r1 = [] ∧ mac1.key = mac.key ∧ mac1.written = mac.written ++ fieldPayloads r ∧
    c1 = { c with Items := c.Items ++ readItems fuel r } ∧
    (ret = .nil ∨ ∃ e, ret = .error (.cantReadEntry e)) := by
  induction fuel generalizing c r mac with
  | zero =>
    simp only [parseItems.loop, Prod.mk.injEq] at h
    exact absurd h.2.2.2.symm hret
  | succ n ih =>
    unfold parseItems.loop at h
    cases hx : ReadItem r mac with
    | none =>
      rw [hx] at h
      simp only [Prod.mk.injEq] at h
      exact absurd h.2.2.2.symm hret
    | some x =>
      obtain ⟨res, r2, mac2⟩ := x
      rw [hx] at h
      obtain ⟨hk, hw, herr, _⟩ := ReadItem_loop_mac _ _ _ _ _ _ _ hx
      cases res with
      | error err =>
        simp only at h
        have hr2 : r2 = [] := herr err rfl
        subst hr2
        rw [fieldPayloads_nil, List.append_nil] at hw
        have hitems := readItems_of_error n r mac err _ _ hx
        have hc : c = { c with Items := c.Items ++ readItems (n + 1) r } := by
          rw [hitems, List.append_nil]
        split at h
        · simp only [Prod.mk.injEq] at h
          obtain ⟨h1, h2, h3, h4⟩ := h
          subst h1 h2 h3 h4
          exact ⟨rfl, hk, hw, hc, Or.inl rfl⟩
        · simp only [Prod.mk.injEq] at h
          obtain ⟨h1, h2, h3, h4⟩ := h
          subst h1 h2 h3 h4
          exact ⟨rfl, hk, hw, hc, Or.inr ⟨_, rfl⟩⟩
      | ok i =>
        simp only at h
        obtain ⟨h1, h2, h3, h4, h5⟩ := ih _ _ _ h
        refine ⟨h1, h2.trans hk, ?_, ?_, h5⟩
        · rw [h3, ← hw]
        · rw [h4, readItems_of_ok n r mac i _ _ hx]
          simp

/-- The three ways `parseItems` returns.  A failure in the first item leaves
the Keychain as it was.  Otherwise `Header` is the first item; on a failure in a
later item `Items` holds the items read before it, in stream order; on success
`Items` holds all of them, sorted, and the HMAC has taken in the payload of
every field of the stream. -/
theorem parseItems_spec (P : Lib) (c : Keychain) (r : List Byte) (mac : Hash)
    (c1 : Keychain) (r1 : List Byte) (mac1 : Hash) (ret : Ret)
    (h : parseItems P c r mac = (c1, r1, mac1, ret)) :
    ret = .hang ∨
    (∃ e, ret = .error (.cantReadHeader e) ∧ c1 = c) ∨
    (∃ hd r0 m0, ReadItem r mac = some (.ok hd, r0, m0) ∧
      ((∃ e, ret = .error (.cantReadEntry e) ∧
          c1 = { c with Header := some hd, Items := itemsOf r0 }) ∨
        (ret = .nil ∧
          c1 = { c with Header := some hd, Items := P.sortByName (itemsOf r0) } ∧
          mac1.key = mac.key ∧ mac1.written = mac.written ++ fieldPayloads r))) := by
  unfold parseItems at h
  cases hx : ReadItem r mac with
  | none =>
    rw [hx] at h
    simp only [Prod.mk.injEq] at h
    exact Or.inl h.2.2.2.symm
  | some x =>
    obtain ⟨res, r0, m0⟩ := x
    rw [hx] at h
    obtain ⟨hk, hw, _, _⟩ := ReadItem_loop_mac _ _ _ _ _ _ _ hx
    cases res with
    | error err =>
      simp only [Prod.mk.injEq] at h
      exact Or.inr (Or.inl ⟨err, h.2.2.2.symm, h.1.symm⟩)
    | ok hd =>
      simp only at h
      cases hl : parseItems.loop (r0.length + 1)
          { c with Header := some hd, Items := [] } r0 m0 with
      | mk c2 rest =>
        obtain ⟨r2, mac2, ret2⟩ := rest
        rw [hl] at h
        by_cases hh : ret2 = .hang
        · subst hh
          simp only [Prod.mk.injEq] at h
          exact Or.inl h.2.2.2.symm
        obtain ⟨h1, h2, h3, h4, h5⟩ := parseItems_loop_spec _ _ _ _ _ _ _ _ hl hh
        refine Or.inr (Or.inr ⟨hd, r0, m0, rfl, ?_⟩)
        rcases h5 with h5 | ⟨e, h5⟩
        · subst h5
          simp only [Prod.mk.injEq] at h
          obtain ⟨hc, _, hm, hr⟩ := h
          subst hc hm hr
          refine Or.inr ⟨rfl, ?_, h2.trans hk, ?_⟩
          · rw [h4]; simp [itemsOf]
          · rw [h3, ← hw]
        · subst h5
          simp only [Prod.mk.injEq] at h
          obtain ⟨hc, _, hm, hr⟩ := h
          subst hc hm hr
          refine Or.inl ⟨e, rfl, ?_⟩
          rw [h4]; simp [itemsOf]

/-! ## The cipher layer on well-sized inputs -/

theorem decryptECB_wrapped (P : Lib) (b key : List Byte) (hk : key.length = 32)
    (hb : b.length = 32) :
    decryptECB P (List.replicate 32 0) b key = some (unwrapKey P key b) := by
  have hdrop : (b.drop 16).take 16 = b.drop 16 :=
    List.take_of_length_le (by simp [hb])
  simp [decryptECB, NewCipher, hk, hb, decryptECB.loop, unwrapKey, hdrop]

theorem decryptCBC_blocks (P : Lib) (data key iv : List Byte) (hk : key.length = 32)
    (hiv : iv.length = 16) (hd : data.length % 16 = 0) :
    decryptCBC P (List.replicate data.length 0) data key iv
      = some (cbcBlocks P key (data.length / 16) iv data) := by
  simp [decryptCBC, NewCipher, hk, hiv, hd]

theorem unwrapKey_length (P : Lib) (key b : List Byte) (hP : P.Contract)
    (hb : b.length = 32) : (unwrapKey P key b).length = 32 := by
  unfold unwrapKey
  rw [List.length_append, hP.twofish_size _ _ (by simp [hb]),
    hP.twofish_size _ _ (by simp [hb])]

theorem unlockCleartext_eq (P : Lib) (c : Keychain) (pwd : List Byte) (hP : P.Contract)
    (hb12 : c.b12.length = 32) (hb34 : c.b34.length = 32) (hiv : c.iv.length = 16)
    (hdata : c.data.length % 16 = 0) :
    unlockCleartext P c pwd = some (cleartextOf P c pwd, keyL P c pwd) := by
  have hs := strechPassword_length P pwd c.salt c.iter hP.sha256_size
  unfold unlockCleartext
  simp only
  rw [decryptECB_wrapped P c.b12 _ hs hb12, decryptECB_wrapped P c.b34 _ hs hb34]
  simp only
  rw [decryptCBC_blocks P c.data _ c.iv (unwrapKey_length P _ _ hP hb12) hiv hdata]
  rfl

/-! ## Unlock -/

theorem Unlock_of_mismatch (P : Lib) (c : Keychain) (pwd : List Byte)
    (h : P.sha256 (strechPassword P pwd c.salt c.iter) ≠ c.pwd) :
    Unlock P c pwd = ⟨c, .error .invalidPassword, []⟩ := by
  unfold Unlock
  simp only
  rw [if_pos (fun e => h e.symm)]

theorem Unlock_of_panic (P : Lib) (c : Keychain) (pwd : List Byte)
    (hpwd : c.pwd = P.sha256 (strechPassword P pwd c.salt c.iter))
    (hct : unlockCleartext P c pwd = none) :
    (Unlock P c pwd).ret = .panic ∧ (Unlock P c pwd).c = c := by
  unfold unlockCleartext at hct
  unfold Unlock
  simp only at hct ⊢
  rw [if_neg (fun e => e hpwd)]
  cases h1 : decryptECB P (List.replicate 32 0) c.b12 (strechPassword P pwd c.salt c.iter) with
  | none => exact ⟨rfl, rfl⟩
  | some k =>
    rw [h1] at hct
    simp only at hct ⊢
    cases h2 : decryptECB P (List.replicate 32 0) c.b34
        (strechPassword P pwd c.salt c.iter) with
    | none => exact ⟨rfl, rfl⟩
    | some l =>
      rw [h2] at hct
      simp only at hct ⊢
      cases h3 : decryptCBC P (List.replicate c.data.length 0) c.data k c.iv with
      | none => exact ⟨rfl, rfl⟩
      | some ct => rw [h3] at hct; simp at hct

theorem Unlock_of_cleartext (P : Lib) (c : Keychain) (pwd ct l : List Byte)
    (hpwd : c.pwd = P.sha256 (strechPassword P pwd c.salt c.iter))
    (hct : unlockCleartext P c pwd = some (ct, l)) :
    Unlock P c pwd =
      match parseItems P c ct ⟨some l, []⟩ with
      | (c1, _, _, .error err) =>
        ⟨c1, .error (.cantParseItems err),
          [Call.decryptECB, .decryptECB, .decryptCBC, .parseItems]⟩
      | (c1, _, mac1, .nil) =>
        if mac1.Sum P ≠ c1.mac then
          ⟨c1, .error .cantVerifyHMAC, [Call.decryptECB, .decryptECB, .decryptCBC, .parseItems]⟩
        else ⟨c1, .nil, [Call.decryptECB, .decryptECB, .decryptCBC, .parseItems]⟩
      | (c1, _, _, out) =>
        ⟨c1, out, [Call.decryptECB, .decryptECB, .decryptCBC, .parseItems]⟩ := by
  unfold unlockCleartext at hct
  unfold Unlock
  simp only at hct ⊢
  rw [if_neg (fun e => e hpwd)]
  cases h1 : decryptECB P (List.replicate 32 0) c.b12 (strechPassword P pwd c.salt c.iter) with
  | none => rw [h1] at hct; simp at hct
  | some k =>
    rw [h1] at hct
    simp only at hct ⊢
    cases h2 : decryptECB P (List.replicate 32 0) c.b34
        (strechPassword P pwd c.salt c.iter) with
    | none => rw [h2] at hct; simp at hct
    | some l' =>
      rw [h2] at hct
      simp only at hct ⊢
      cases h3 : decryptCBC P (List.replicate c.data.length 0) c.data k c.iv with
      | none => rw [h3] at hct; simp at hct
      | some ct' =>
        rw [h3] at hct
        simp only [Option.some.injEq, Prod.mk.injEq] at hct
        obtain ⟨rfl, rfl⟩ := hct
        rfl

/-- Every way `Unlock` can end, with the Keychain it leaves behind. -/
theorem Unlock_cases (P : Lib) (c : Keychain) (pwd : List Byte) :
    Unlock P c pwd = ⟨c, .error .invalidPassword, []⟩ ∨
    ((Unlock P c pwd).ret = .panic ∧ (Unlock P c pwd).c = c) ∨
    (Unlock P c pwd).ret = .hang ∨
    (∃ ct l, unlockCleartext P c pwd = some (ct, l) ∧
      ((∃ e, (Unlock P c pwd).ret = .error (.cantParseItems (.cantReadHeader e)) ∧
          (Unlock P c pwd).c = c) ∨
        (∃ hd r0 m0, ReadItem ct ⟨some l, []⟩ = some (.ok hd, r0, m0) ∧
          ((∃ e, (Unlock P c pwd).ret = .error (.cantParseItems (.cantReadEntry e)) ∧
              (Unlock P c pwd).c = { c with Header := some hd, Items := itemsOf r0 }) ∨
            ((Unlock P c pwd).c
                = { c with Header := some hd, Items := P.sortByName (itemsOf r0) } ∧
              ((Unlock P c pwd).ret = .nil ∨ (Unlock P c pwd).ret = .error .cantVerifyHMAC) ∧
              ((Unlock P c pwd).ret = .nil ↔
                P.hmacSHA256 l (fieldPayloads ct) = c.mac)))))) := by
  by_cases hpwd : P.sha256 (strechPassword P pwd c.salt c.iter) = c.pwd
  swap
  · exact Or.inl (Unlock_of_mismatch P c pwd hpwd)
  cases hct : unlockCleartext P c pwd with
  | none => exact Or.inr (Or.inl (Unlock_of_panic P c pwd hpwd.symm hct))
  | some x =>
    obtain ⟨ct, l⟩ := x
    have hU := Unlock_of_cleartext P c pwd ct l hpwd.symm hct
    cases hpi : parseItems P c ct ⟨some l, []⟩ with
    | mk c1 rest =>
      obtain ⟨r1, mac1, ret⟩ := rest
      rw [hpi] at hU
      rcases parseItems_spec P c ct _ c1 r1 mac1 ret hpi with hh | ⟨e, he, hc⟩ |
        ⟨hd, r0, m0, hrd, ⟨e, he, hc⟩ | ⟨hn, hc, hk, hw⟩⟩
      · subst hh
        simp only at hU
        exact Or.inr (Or.inr (Or.inl (by rw [hU])))
      · subst he hc
        simp only at hU
        refine Or.inr (Or.inr (Or.inr ⟨ct, l, rfl, Or.inl ⟨e, ?_, ?_⟩⟩))
        · rw [hU]
        · rw [hU]
      · subst he
        simp only at hU
        refine Or.inr (Or.inr (Or.inr ⟨ct, l, rfl, Or.inr ⟨hd, r0, m0, hrd, Or.inl ⟨e, ?_, ?_⟩⟩⟩))
        · rw [hU]
        · rw [hU]; exact hc
      · subst hn
        simp only at hU
        have hsum : mac1.Sum P = P.hmacSHA256 l (fieldPayloads ct) := by
          unfold Hash.Sum
          rw [hk, hw]
          simp
        have hmac : c1.mac = c.mac := by rw [hc]
        rw [hsum, hmac] at hU
        refine Or.inr (Or.inr (Or.inr ⟨ct, l, rfl, Or.inr ⟨hd, r0, m0, hrd, Or.inr ?_⟩⟩))
        by_cases heq : P.hmacSHA256 l (fieldPayloads ct) = c.mac
        · rw [if_neg (fun hne => hne heq)] at hU
          rw [hU]
          exact ⟨hc, Or.inl rfl, fun _ => heq, fun _ => rfl⟩
        · rw [if_pos heq] at hU
          rw [hU]
          refine ⟨hc, Or.inr rfl, fun h => ?_, fun h => absurd h heq⟩
          cases h

/-- C2. When the SHA-256 of the stretched password differs from the stored
verification hash, `Unlock` returns the invalid-password error, leaves the
Keychain (so `Header` and `Items`) as it was, and has made no cipher or parser
call. -/
theorem Unlock_invalid_password (P : Lib) (c : Keychain) (pwd : List Byte)
    (h : P.sha256 (strechPassword P pwd c.salt c.iter) ≠ c.pwd) :
    (Unlock P c pwd).ret = .error .invalidPassword ∧
    (Unlock P c pwd).log = [] ∧
    (Unlock P c pwd).c = c ∧
    (Unlock P c pwd).c.Header = c.Header ∧ (Unlock P c pwd).c.Items = c.Items := by
  rw [Unlock_of_mismatch P c pwd h]
  exact ⟨rfl, rfl, rfl, rfl, rfl⟩

/-- The sample Keychain rejects the password `"\x01"`. -/
theorem Unlock_invalid_password_witness :
    (Unlock testLib (sampleKeychain (List.replicate 32 97)) [1]).ret = .error .invalidPassword ∧
    (Unlock testLib (sampleKeychain (List.replicate 32 97)) [1]).log = [] ∧
    (Unlock testLib (sampleKeychain (List.replicate 32 97)) [1]).c
      = sampleKeychain (List.replicate 32 97) ∧
    (Unlock testLib (sampleKeychain (List.replicate 32 97)) [1]).c.Header
      = (sampleKeychain (List.replicate 32 97)).Header ∧
    (Unlock testLib (sampleKeychain (List.replicate 32 97)) [1]).c.Items
      = (sampleKeychain (List.replicate 32 97)).Items :=
  Unlock_invalid_password testLib (sampleKeychain (List.replicate 32 97)) [1] (by decide)

/-- C3. For a container with well-sized wrapped keys, IV and ciphertext whose
verification hash matches the password and whose CBC-decrypted cleartext
`parseItems` reads without error, `Unlock` succeeds exactly when HMAC-SHA256
under `L`, taken over the payloads of all fields of the cleartext in stream
order, equals the stored HMAC, and returns the HMAC error otherwise. -/
theorem Unlock_hmac_iff (P : Lib) (c : Keychain) (pwd : List Byte) (hP : P.Contract)
    (hb12 : c.b12.length = 32) (hb34 : c.b34.length = 32) (hiv : c.iv.length = 16)
    (hdata : c.data.length % 16 = 0)
    (hpwd : P.sha256 (strechPassword P pwd c.salt c.iter) = c.pwd)
    (hparse : (parseItems P c (cleartextOf P c pwd) ⟨some (keyL P c pwd), []⟩).2.2.2 = .nil) :
    ((Unlock P c pwd).ret = .nil ↔
      P.hmacSHA256 (keyL P c pwd) (fieldPayloads (cleartextOf P c pwd)) = c.mac) ∧
    (P.hmacSHA256 (keyL P c pwd) (fieldPayloads (cleartextOf P c pwd)) ≠ c.mac →
      (Unlock P c pwd).ret = .error .cantVerifyHMAC) := by
  have hct := unlockCleartext_eq P c pwd hP hb12 hb34 hiv hdata
  have hU := Unlock_of_cleartext P c pwd _ _ hpwd.symm hct
  cases hpi : parseItems P c (cleartextOf P c pwd) ⟨some (keyL P c pwd), []⟩ with
  | mk c1 rest =>
    obtain ⟨r1, mac1, ret⟩ := rest
    rw [hpi] at hU hparse
    simp only at hparse
    subst hparse
    simp only at hU
    rcases parseItems_spec P c _ _ c1 r1 mac1 _ hpi with hh | ⟨e, he, _⟩ |
      ⟨hd, r0, m0, _, ⟨e, he, _⟩ | ⟨_, hc, hk, hw⟩⟩
    · cases hh
    · cases he
    · cases he
    · have hsum : mac1.Sum P
          = P.hmacSHA256 (keyL P c pwd) (fieldPayloads (cleartextOf P c pwd)) := by
        unfold Hash.Sum
        rw [hk, hw]
        simp
      have hmac : c1.mac = c.mac := by rw [hc]
      rw [hsum, hmac] at hU
      by_cases heq : P.hmacSHA256 (keyL P c pwd) (fieldPayloads (cleartextOf P c pwd)) = c.mac
      · rw [if_neg (fun hne => hne heq)] at hU
        rw [hU]
        exact ⟨⟨fun _ => heq, fun _ => rfl⟩, fun hne => absurd heq hne⟩
      · rw [if_pos heq] at hU
        rw [hU]
        exact ⟨⟨(by intro h; cases h), fun h => absurd h heq⟩, fun _ => rfl⟩

set_option maxRecDepth 100000 in
/-- The sample Keychain with the right HMAC opens with `"pw"`. -/
theorem Unlock_hmac_iff_witness :
    ((Unlock testLib (sampleKeychain (List.replicate 32 97)) samplePassword).ret = .nil ↔
      testLib.hmacSHA256 (keyL testLib (sampleKeychain (List.replicate 32 97)) samplePassword)
        (fieldPayloads (cleartextOf testLib (sampleKeychain (List.replicate 32 97))
          samplePassword)) = (sampleKeychain (List.replicate 32 97)).mac) ∧
    (testLib.hmacSHA256 (keyL testLib (sampleKeychain (List.replicate 32 97)) samplePassword)
        (fieldPayloads (cleartextOf testLib (sampleKeychain (List.replicate 32 97))
          samplePassword)) ≠ (sampleKeychain (List.replicate 32 97)).mac →
      (Unlock testLib (sampleKeychain (List.replicate 32 97)) samplePassword).ret
        = .error .cantVerifyHMAC) :=
  Unlock_hmac_iff testLib (sampleKeychain (List.replicate 32 97)) samplePassword
    testLib_contract (by decide) (by decide) (by decide) (by decide) (by decide) (by decide)

set_option maxRecDepth 100000 in
/-- C1 fails as stated.  The sample Keychain with a wrong stored HMAC: `Unlock`
with the right password returns the HMAC error, yet `Header` has gone from nil
to the parsed header and `Items` from empty to the decrypted entry `"a"`. -/
theorem Unlock_not_atomic :
    (Unlock testLib (sampleKeychain (List.replicate 32 0)) samplePassword).ret
        = .error .cantVerifyHMAC
    ∧ (sampleKeychain (List.replicate 32 0)).Header = none
    ∧ (sampleKeychain (List.replicate 32 0)).Items = []
    ∧ (Unlock testLib (sampleKeychain (List.replicate 32 0)) samplePassword).c.Header
        = some ⟨[]⟩
    ∧ (Unlock testLib (sampleKeychain (List.replicate 32 0)) samplePassword).c.Items
        = [⟨[⟨3, [97]⟩]⟩] := by
  decide

/-- C1, amended.  `Unlock` leaves the Keychain as it was when it returns the
invalid-password error or fails in the header item.  When it fails in a later
item, `Header` is the parsed header and `Items` the entries read before the
failure, in stream order; when it fails on the HMAC comparison, `Header` is the
parsed header and `Items` all entries, sorted.  These are all the errors it
returns. -/
theorem Unlock_failure_state (P : Lib) (c : Keychain) (pwd : List Byte) :
    ((Unlock P c pwd).ret = .error .invalidPassword → (Unlock P c pwd).c = c) ∧
    (∀ e, (Unlock P c pwd).ret = .error (.cantParseItems (.cantReadHeader e)) →
      (Unlock P c pwd).c = c) ∧
    (∀ e, (Unlock P c pwd).ret = .error (.cantParseItems (.cantReadEntry e)) →
      ∃ ct l hd r0 m0, unlockCleartext P c pwd = some (ct, l) ∧
        ReadItem ct ⟨some l, []⟩ = some (.ok hd, r0, m0) ∧
        (Unlock P c pwd).c = { c with Header := some hd, Items := itemsOf r0 }) ∧
    ((Unlock P c pwd).ret = .error .cantVerifyHMAC →
      ∃ ct l hd r0 m0, unlockCleartext P c pwd = some (ct, l) ∧
        ReadItem ct ⟨some l, []⟩ = some (.ok hd, r0, m0) ∧
        (Unlock P c pwd).c
          = { c with Header := some hd, Items := P.sortByName (itemsOf r0) }) ∧
    (∀ e, (Unlock P c pwd).ret = .error e →
      e = .invalidPassword ∨ e = .cantVerifyHMAC ∨
      ∃ e', e = .cantParseItems (.cantReadHeader e') ∨
        e = .cantParseItems (.cantReadEntry e')) := by
  rcases Unlock_cases P c pwd with h | ⟨hr, hc⟩ | hr |
    ⟨ct, l, hct, ⟨e, hr, hc⟩ | ⟨hd, r0, m0, hrd, ⟨e, hr, hc⟩ | ⟨hc, hr, _⟩⟩⟩
  · rw [h]
    simp
  · rw [hr]
    simp
  · rw [hr]
    simp
  · rw [hr]
    simp [hc]
  · rw [hr]
    simp only [Ret.error.injEq, Error.cantParseItems.injEq, Error.cantReadEntry.injEq]
    refine ⟨by simp, by simp, fun _ _ => ⟨ct, l, hd, r0, m0, hct, hrd, hc⟩, by simp, ?_⟩
    intro e' he'
    subst he'
    exact Or.inr (Or.inr ⟨e, Or.inr rfl⟩)
  · rcases hr with hr | hr
    · rw [hr]
      simp
    · rw [hr]
      refine ⟨by simp, by simp, by simp, fun _ => ⟨ct, l, hd, r0, m0, hct, hrd, hc⟩, ?_⟩
      intro e' he'
      simp only [Ret.error.injEq] at he'
      subst he'
      exact Or.inr (Or.inl rfl)

set_option maxRecDepth 100000 in
/-- On the sample Keychain with a wrong stored HMAC the HMAC case applies. -/
theorem Unlock_failure_state_witness :
    ∃ ct l hd r0 m0,
      unlockCleartext testLib (sampleKeychain (List.replicate 32 0)) samplePassword
        = some (ct, l) ∧
      ReadItem ct ⟨some l, []⟩ = some (.ok hd, r0, m0) ∧
      (Unlock testLib (sampleKeychain (List.replicate 32 0)) samplePassword).c
        = { sampleKeychain (List.replicate 32 0) with
            Header := some hd, Items := testLib.sortByName (itemsOf r0) } :=
  (Unlock_failure_state testLib (sampleKeychain (List.replicate 32 0)) samplePassword).2.2.2.1
    (by decide)

set_option maxRecDepth 100000 in
/-- C6, at the failing input.  Whatever fields an item has collected, at the
clean end of the stream the field loop of `ReadItem` returns the bare `io.EOF`.
So on the stream `endRecord ++ titleRecord`, which ends after the title field of
the first entry, `ReadItem` returns for that entry the same `io.EOF` as on the
empty stream, `parseItems` returns nil with no entry, and `Unlock` of
`truncatedKeychain` with the matching HMAC succeeds with an empty entry list. -/
theorem ReadItem_eof_inside_item :
    (∀ (i : Item) (mac : Hash) (fuel : Nat),
      ReadItem.loop (fuel + 1) i [] mac = some (.error .EOF, [], mac))
    ∧ ReadItem titleRecord ⟨none, []⟩ = some (.error .EOF, [], ⟨none, [97]⟩)
    ∧ ReadItem [] ⟨none, []⟩ = some (.error .EOF, [], ⟨none, []⟩)
    ∧ parseItems testLib (truncatedKeychain []) (endRecord ++ titleRecord) ⟨none, []⟩
        = ({ truncatedKeychain [] with Header := some ⟨[]⟩, Items := [] }, [],
            ⟨none, [97]⟩, .nil)
    ∧ Unlock testLib (truncatedKeychain (List.replicate 32 97)) samplePassword
        = ⟨{ truncatedKeychain (List.replicate 32 97) with
              Header := some ⟨[]⟩, Items := [] }, .nil,
            [.decryptECB, .decryptECB, .decryptCBC, .parseItems]⟩ := by
  refine ⟨?_, by decide, by decide, by decide, by decide⟩
  intro i mac fuel
  rw [ReadItem.loop, ReadField_nil]
  simp only
  split <;> rfl

/-! ## Termination -/

theorem ReadItem_loop_total (fuel : Nat) (i : Item) (r : List Byte) (mac : Hash)
    (h : r.length < fuel) : (ReadItem.loop fuel i r mac).isSome = true := by
  induction fuel generalizing i r mac with
  | zero => omega
  | succ n ih =>
    unfold ReadItem.loop
    rcases ReadField_cases r with ⟨e, he⟩ | ⟨f, r1, hlen, hok⟩
    · rw [he]
      simp only
      split <;> rfl
    · rw [hok]
      simp only
      split
      · rfl
      · exact ih _ _ _ (by omega)

theorem ReadItem_total (r : List Byte) (mac : Hash) :
    ∃ res r1 mac1, ReadItem r mac = some (res, r1, mac1) := by
  have h := ReadItem_loop_total (r.length + 1) ⟨[]⟩ r mac (by omega)
  unfold ReadItem
  cases hx : ReadItem.loop (r.length + 1) ⟨[]⟩ r mac with
  | none => rw [hx] at h; cases h
  | some x => exact ⟨x.1, x.2.1, x.2.2, rfl⟩

theorem parseItems_loop_total (fuel : Nat) (c : Keychain) (r : List Byte) (mac : Hash)
    (h : r.length < fuel) : (parseItems.loop fuel c r mac).2.2.2 ≠ .hang := by
  induction fuel generalizing c r mac with
  | zero => omega
  | succ n ih =>
    unfold parseItems.loop
    obtain ⟨res, r1, mac1, hx⟩ := ReadItem_total r mac
    rw [hx]
    cases res with
    | error err =>
      simp only
      split
      · simp
      · simp
    | ok i =>
      simp only
      obtain ⟨_, _, _, hlen⟩ := ReadItem_loop_mac _ _ _ _ _ _ _ hx
      have := hlen i rfl
      exact ih _ _ _ (by omega)

theorem parseItems_total (P : Lib) (c : Keychain) (r : List Byte) (mac : Hash) :
    (parseItems P c r mac).2.2.2 ≠ .hang := by
  unfold parseItems
  obtain ⟨res, r1, mac1, hx⟩ := ReadItem_total r mac
  rw [hx]
  cases res with
  | error err => simp
  | ok hd =>
    simp only
    have ht := parseItems_loop_total (r1.length + 1)
      { c with Header := some hd, Items := [] } r1 mac1 (by omega)
    cases hl : parseItems.loop (r1.length + 1)
        { c with Header := some hd, Items := [] } r1 mac1 with
    | mk c2 rest =>
      obtain ⟨r2, mac2, ret2⟩ := rest
      rw [hl] at ht
      simp only at ht
      cases ret2 with
      | nil => simp
      | error e => simp
      | panic => simp
      | hang => exact absurd rfl ht

/-- C20. `parseItems` terminates on every finite plaintext.  A `ReadField` call
that returns a field has consumed at least 5 bytes and every other call
returns an error; so the field loop of `ReadItem` and the entry loop of
`parseItems` finish within as many rounds as the stream has bytes, plus one, and
`ReadItem` and `parseItems` return on every byte sequence. -/
theorem parseItems_terminates (P : Lib) (c : Keychain) (r : List Byte) (mac : Hash) :
    (∀ f r1 mac1, ReadField r mac = (.ok f, r1, mac1) → r1.length + 5 ≤ r.length) ∧
    ((∃ e, (ReadField r mac).1 = .error e) ∨ ∃ f, (ReadField r mac).1 = .ok f) ∧
    (∀ fuel i, r.length < fuel → (ReadItem.loop fuel i r mac).isSome = true) ∧
    (∀ fuel, r.length < fuel → (parseItems.loop fuel c r mac).2.2.2 ≠ .hang) ∧
    (ReadItem r mac).isSome = true ∧
    (parseItems P c r mac).2.2.2 ≠ .hang := by
  refine ⟨?_, ?_, fun fuel i h => ReadItem_loop_total fuel i r mac h,
    fun fuel h => parseItems_loop_total fuel c r mac h, ?_, parseItems_total P c r mac⟩
  · intro f r1 mac1 h
    rcases ReadField_cases r with ⟨e, he⟩ | ⟨f', r1', hlen, hok⟩
    · rw [he] at h
      simp at h
    · rw [hok] at h
      simp only [Prod.mk.injEq] at h
      rw [← h.2.1]
      exact hlen
  · rcases ReadField_cases r with ⟨e, he⟩ | ⟨f', r1', hlen, hok⟩
    · exact Or.inl ⟨e, by rw [he]⟩
    · exact Or.inr ⟨f', by rw [hok]⟩
  · obtain ⟨res, r1, mac1, hx⟩ := ReadItem_total r mac
    rw [hx]
    rfl

/-- A stream of 16 garbage bytes whose length prefix asks for far more than is
there: the field loop still ends within the fuel of 17. -/
theorem parseItems_terminates_witness :
    (ReadItem.loop 17 ⟨[]⟩ (List.replicate 16 200) ⟨none, []⟩).isSome = true :=
  (parseItems_terminates testLib emptyKeychain (List.replicate 16 200) ⟨none, []⟩).2.2.1
    17 ⟨[]⟩ (by decide)

/-! ## The cipher layer after parseFile -/

theorem Unlock_no_panic_of_cleartext (P : Lib) (c : Keychain) (pwd ct l : List Byte)
    (hct : unlockCleartext P c pwd = some (ct, l)) : (Unlock P c pwd).ret ≠ .panic := by
  by_cases hpwd : P.sha256 (strechPassword P pwd c.salt c.iter) = c.pwd
  swap
  · rw [Unlock_of_mismatch P c pwd hpwd]
    simp
  rw [Unlock_of_cleartext P c pwd ct l hpwd.symm hct]
  cases hpi : parseItems P c ct ⟨some l, []⟩ with
  | mk c1 rest =>
    obtain ⟨r1, mac1, ret⟩ := rest
    rcases parseItems_spec P c ct _ c1 r1 mac1 ret hpi with hh | ⟨e, he, _⟩ |
      ⟨hd, r0, m0, _, ⟨e, he, _⟩ | ⟨hn, _, _, _⟩⟩
    · subst hh; simp
    · subst he; simp
    · subst he; simp
    · subst hn
      simp only
      split <;> simp

/-- C19. On a Keychain that `parseFile` has returned, with a library that meets
its contract, no cipher call of `Unlock` can fail: the key of both `decryptECB`
calls is the 32-byte stretched password, each wrapped key is two 16-byte blocks
that are decrypted on their own into `K` and `L`, the key of `decryptCBC` is the
32-byte `K`, the IV has 16 bytes and the ciphertext a multiple of 16, so each
call returns and `Unlock` does not panic. -/
theorem Unlock_no_panic (P : Lib) (hP : P.Contract) (f spare : List Byte) (c : Keychain)
    (pwd : List Byte) (h : parseFile f spare = some (.ok c)) :
    (strechPassword P pwd c.salt c.iter).length = 32 ∧
    c.b12.length = 32 ∧ (c.b12.take 16).length = 16 ∧ (c.b12.drop 16).length = 16 ∧
    c.b34.length = 32 ∧ (c.b34.take 16).length = 16 ∧ (c.b34.drop 16).length = 16 ∧
    c.iv.length = 16 ∧ c.data.length % 16 = 0 ∧
    decryptECB P (List.replicate 32 0) c.b12 (strechPassword P pwd c.salt c.iter)
      = some (P.twofishDecrypt (strechPassword P pwd c.salt c.iter) (c.b12.take 16)
          ++ P.twofishDecrypt (strechPassword P pwd c.salt c.iter) (c.b12.drop 16)) ∧
    decryptECB P (List.replicate 32 0) c.b34 (strechPassword P pwd c.salt c.iter)
      = some (P.twofishDecrypt (strechPassword P pwd c.salt c.iter) (c.b34.take 16)
          ++ P.twofishDecrypt (strechPassword P pwd c.salt c.iter) (c.b34.drop 16)) ∧
    (keyK P c pwd).length = 32 ∧
    decryptCBC P (List.replicate c.data.length 0) c.data (keyK P c pwd) c.iv
      = some (cleartextOf P c pwd) ∧
    (Unlock P c pwd).ret ≠ .panic := by
  obtain ⟨h152, _, _, _, _, hb12, hb34, hiv, _, _, n, _, hal, _, hlen, _⟩ :=
    parseFile_layout f spare c h
  have l12 : c.b12.length = 32 := by rw [hb12]; simp; omega
  have l34 : c.b34.length = 32 := by rw [hb34]; simp; omega
  have liv : c.iv.length = 16 := by rw [hiv]; simp; omega
  have ldata : c.data.length % 16 = 0 := by rw [hlen]; exact hal
  have hs := strechPassword_length P pwd c.salt c.iter hP.sha256_size
  have hk : (keyK P c pwd).length = 32 := unwrapKey_length P _ _ hP l12
  refine ⟨hs, l12, by simp [l12], by simp [l12], l34, by simp [l34], by simp [l34], liv,
    ldata, decryptECB_wrapped P c.b12 _ hs l12, decryptECB_wrapped P c.b34 _ hs l34, hk,
    decryptCBC_blocks P c.data _ c.iv hk liv ldata, ?_⟩
  exact Unlock_no_panic_of_cleartext P c pwd _ _
    (unlockCleartext_eq P c pwd hP l12 l34 liv ldata)

set_option maxRecDepth 100000 in
/-- The Keychain parsed from `sampleFile`, which holds three blocks of
ciphertext, with the matching password `"pw"`: `Unlock` makes all its cipher and
parser calls, the CBC decryption returns the cleartext of three field records,
and `Unlock` returns nil, not a panic. -/
theorem Unlock_no_panic_witness :
    parseFile sampleFile [] = some (.ok (sampleKeychain (List.replicate 32 97)))
    ∧ (Unlock testLib (sampleKeychain (List.replicate 32 97)) samplePassword).log
        = [.decryptECB, .decryptECB, .decryptCBC, .parseItems]
    ∧ (Unlock testLib (sampleKeychain (List.replicate 32 97)) samplePassword).ret = .nil
    ∧ cleartextOf testLib (sampleKeychain (List.replicate 32 97)) samplePassword
        = endRecord ++ titleRecord ++ endRecord
    ∧ decryptCBC testLib (List.replicate (sampleKeychain (List.replicate 32 97)).data.length 0)
        (sampleKeychain (List.replicate 32 97)).data
        (keyK testLib (sampleKeychain (List.replicate 32 97)) samplePassword)
        (sampleKeychain (List.replicate 32 97)).iv
        = some (cleartextOf testLib (sampleKeychain (List.replicate 32 97)) samplePassword)
    ∧ (Unlock testLib (sampleKeychain (List.replicate 32 97)) samplePassword).ret ≠ .panic :=
  ⟨by decide, by decide, by decide, by decide,
    (Unlock_no_panic testLib testLib_contract sampleFile []
      (sampleKeychain (List.replicate 32 97)) samplePassword
      (by decide)).2.2.2.2.2.2.2.2.2.2.2.2.1,
    (Unlock_no_panic testLib testLib_contract sampleFile []
      (sampleKeychain (List.replicate 32 97)) samplePassword
      (by decide)).2.2.2.2.2.2.2.2.2.2.2.2.2⟩

/-! ## Items -/

theorem Item_get_set (i : Item) (f : Field) (t : FieldType) :
    (i.set f).get t = if f.Typ = t then some f else i.get t := by
  unfold Item.set Item.get
  by_cases h : f.Typ = t
  · simp [h]
  · simp only [List.find?_cons, h, decide_False, if_false, List.find?_filter]
    congr 1
    funext a
    by_cases ha : a.Typ = t
    · have : ¬ t = f.Typ := fun e => h e.symm
      simp [ha, this]
    · simp [ha]

theorem foldl_set_get (fs : List Record) (i : Item) (t : FieldType) :
    (fs.foldl (fun i f => i.set f.field) i).get t
      = match (fs.reverse.find? (fun f => f.tp.val = t)).map Record.field with
        | some f => some f
        | none => i.get t := by
  induction fs generalizing i with
  | nil => rfl
  | cons f fs ih =>
    rw [List.foldl_cons, ih, List.reverse_cons, List.find?_append]
    cases hx : fs.reverse.find? (fun f => f.tp.val = t) with
    | some g => rfl
    | none =>
      simp only [Option.none_or, List.find?_cons, List.find?_nil, Option.map_none']
      rw [Item_get_set]
      by_cases hf : f.tp.val = t
      · simp [hf, Record.field]
      · simp [hf, Record.field]

/-- C17. The display name: with a group field, the group payload, a `'.'` and
the title payload; without one, the title payload alone; a missing title field
counts as the empty string in both cases. -/
theorem Item_String_spec (i : Item) :
    (∀ g, i.get TypeGroup = some g → i.String = g.data ++ [46] ++ i.titlePayload) ∧
    (i.get TypeGroup = none → i.String = i.titlePayload) ∧
    (∀ t, i.get TypeTitle = some t → i.titlePayload = t.data) ∧
    (i.get TypeTitle = none → i.titlePayload = []) ∧
    (∀ g, i.get TypeGroup = some g → i.get TypeTitle = none → i.String = g.data ++ [46]) ∧
    (i.get TypeGroup = none → i.get TypeTitle = none → i.String = []) := by
  have h1 : ∀ g, i.get TypeGroup = some g → i.String = g.data ++ [46] ++ i.titlePayload := by
    intro g hg
    unfold Item.String Item.titlePayload
    rw [hg]
    cases i.get TypeTitle <;> rfl
  have h2 : i.get TypeGroup = none → i.String = i.titlePayload := by
    intro hg
    unfold Item.String Item.titlePayload
    rw [hg]
    cases i.get TypeTitle <;> rfl
  have h3 : ∀ t, i.get TypeTitle = some t → i.titlePayload = t.data := by
    intro t ht
    unfold Item.titlePayload
    rw [ht]
  have h4 : i.get TypeTitle = none → i.titlePayload = [] := by
    intro ht
    unfold Item.titlePayload
    rw [ht]
  refine ⟨h1, h2, h3, h4, ?_, ?_⟩
  · intro g hg ht
    rw [h1 g hg, h4 ht, List.append_nil]
  · intro hg ht
    rw [h2 hg, h4 ht]

/-- An item with group `"g"` and no title is named `"g."`. -/
theorem Item_String_spec_witness : Item.String ⟨[⟨2, [103]⟩]⟩ = [103] ++ [46] :=
  (Item_String_spec ⟨[⟨2, [103]⟩]⟩).2.2.2.2.1 ⟨2, [103]⟩ (by decide) (by decide)

/-! ## Complete records -/

theorem ReadField_record (f : Record) (hf : f.WellFormed) (s : List Byte) (mac : Hash) :
    ReadField (f.bytes ++ s) mac = (.ok f.field, s, mac.Write f.payload) := by
  obtain ⟨hL, hpad⟩ := hf
  unfold Record.bytes Record.field
  have hlen : (le32 f.payload.length).length = 4 := rfl
  have htake : (le32 f.payload.length ++ [f.tp] ++ f.payload ++ f.pad ++ s).take 4
      = le32 f.payload.length := by
    simp [List.append_assoc, List.take_append_eq_append_take, hlen]
  have hu : Uint32 ((le32 f.payload.length ++ [f.tp] ++ f.payload ++ f.pad ++ s).take 4)
      = f.payload.length := by
    rw [htake, Uint32_le32 _ hL]
  rw [ReadField_ok _ _ (by simp; omega) (by rw [hu]; simp; omega), hu]
  have hstream : le32 f.payload.length ++ [f.tp] ++ f.payload ++ f.pad ++ s
      = le32 f.payload.length ++ (f.tp :: (f.payload ++ (f.pad ++ s))) := by
    simp [List.append_assoc]
  have hstream5 : le32 f.payload.length ++ [f.tp] ++ f.payload ++ f.pad ++ s
      = (le32 f.payload.length ++ [f.tp]) ++ (f.payload ++ (f.pad ++ s)) := by
    simp [List.append_assoc]
  have hstreamAll : le32 f.payload.length ++ [f.tp] ++ f.payload ++ f.pad ++ s
      = (le32 f.payload.length ++ [f.tp] ++ f.payload ++ f.pad) ++ s := by
    simp [List.append_assoc]
  have d4 : (le32 f.payload.length ++ [f.tp] ++ f.payload ++ f.pad ++ s).drop 4
      = f.tp :: (f.payload ++ (f.pad ++ s)) := by
    rw [hstream]; exact List.drop_left' hlen
  have d5 : (le32 f.payload.length ++ [f.tp] ++ f.payload ++ f.pad ++ s).drop 5
      = f.payload ++ (f.pad ++ s) := by
    rw [hstream5]; exact List.drop_left' (by simp [hlen])
  have dall : (le32 f.payload.length ++ [f.tp] ++ f.payload ++ f.pad ++ s).drop
      (5 + f.payload.length + (16 - (5 + f.payload.length) % 16) % 16) = s := by
    rw [hstreamAll]; exact List.drop_left' (by simp [hlen, hpad]; omega)
  rw [d4, d5, dall]
  simp

theorem Record_bytes_length (f : Record) : 5 ≤ f.bytes.length := by
  unfold Record.bytes
  have hlen : (le32 f.payload.length).length = 4 := rfl
  simp [hlen]
  omega

theorem ReadItem_loop_record (fs : List Record) (last : Record)
    (hfs : ∀ f ∈ fs, f.WellFormed ∧ f.tp.val ≠ TypeEnd)
    (hlast : last.WellFormed ∧ last.tp.val = TypeEnd) (s : List Byte) (mac : Hash)
    (i : Item) (fuel : Nat) (hfuel : fs.length < fuel) :
    ReadItem.loop fuel i ((fs.map Record.bytes).flatten ++ last.bytes ++ s) mac
      = some (.ok (fs.foldl (fun i f => i.set f.field) i), s,
          ⟨mac.key, mac.written ++ (fs.map Record.payload).flatten ++ last.payload⟩) := by
  induction fs generalizing i mac fuel with
  | nil =>
    cases fuel with
    | zero => simp at hfuel
    | succ n =>
      simp only [List.map_nil, List.flatten_nil, List.nil_append, List.foldl_nil,
        List.append_nil]
      rw [ReadItem.loop, ReadField_record last hlast.1 s mac]
      simp only [Record.field, hlast.2, if_true]
      rfl
  | cons f fs ih =>
    cases fuel with
    | zero => simp at hfuel
    | succ n =>
      have hf := hfs f (List.mem_cons_self _ _)
      have hstream : ((f :: fs).map Record.bytes).flatten ++ last.bytes ++ s
          = f.bytes ++ ((fs.map Record.bytes).flatten ++ last.bytes ++ s) := by
        simp [List.append_assoc]
      rw [hstream, ReadItem.loop, ReadField_record f hf.1 _ mac]
      simp only [Record.field, hf.2, if_false]
      rw [ih (fun g hg => hfs g (List.mem_cons_of_mem _ hg)) _ _ n
        (by simp at hfuel; omega)]
      simp [Hash.Write, Record.field, List.append_assoc]

theorem ItemRecord_bytes_length (x : ItemRecord) :
    x.fields.length < x.bytes.length := by
  unfold ItemRecord.bytes
  have h5 := Record_bytes_length x.last
  have hfl : x.fields.length ≤ ((x.fields.map Record.bytes).flatten).length := by
    induction x.fields with
    | nil => simp
    | cons f fs ih =>
      have := Record_bytes_length f
      simp only [List.map_cons, List.flatten_cons, List.length_append, List.length_cons]
      omega
  rw [List.length_append]
  omega

theorem ReadItem_record (x : ItemRecord) (hx : x.WellFormed) (s : List Byte) (mac : Hash) :
    ReadItem (x.bytes ++ s) mac
      = some (.ok x.item, s,
          ⟨mac.key, mac.written ++ (x.fields.map Record.payload).flatten ++ x.last.payload⟩) := by
  unfold ReadItem ItemRecord.item
  have hlen := ItemRecord_bytes_length x
  exact ReadItem_loop_record x.fields x.last hx.1 hx.2 s mac ⟨[]⟩ _
    (by rw [List.length_append]; omega)

/-- C18. On a stream that begins with a complete item record (well-formed fields
of types other than `0xFF`, then a well-formed field of type `0xFF`), `ReadItem`
returns an Item that holds, for every type, the last field of that type among
the fields of the record (none if there is none, whatever the type is), holds
nothing under `0xFF`, and leaves exactly the bytes after the record unread. -/
theorem ReadItem_complete_record (x : ItemRecord) (hx : x.WellFormed) (s : List Byte)
    (mac : Hash) :
    ∃ it mac1, ReadItem (x.bytes ++ s) mac = some (.ok it, s, mac1) ∧
      (∀ t, it.get t = x.lastOfType t) ∧ it.get TypeEnd = none := by
  refine ⟨x.item, _, ReadItem_record x hx s mac, ?_⟩
  have hget : ∀ t, x.item.get t = x.lastOfType t := by
    intro t
    unfold ItemRecord.item ItemRecord.lastOfType
    rw [foldl_set_get]
    cases (x.fields.reverse.find? (fun f => f.tp.val = t)).map Record.field <;> rfl
  refine ⟨hget, ?_⟩
  rw [hget]
  unfold ItemRecord.lastOfType
  have : x.fields.reverse.find? (fun f => f.tp.val = TypeEnd) = none := by
    rw [List.find?_eq_none]
    intro f hf
    have := (hx.1 f (List.mem_reverse.1 hf)).2
    simpa using this
  rw [this]
  rfl

set_option maxRecDepth 100000 in
/-- The sample record, with titles `"a"` then `"b"` and a field of type 0x42,
followed by two more bytes: the item has title `"b"`, keeps the field of type
0x42 and has no entry under `0xFF`. -/
theorem ReadItem_complete_record_witness :
    ∃ it mac1, ReadItem (sampleItemRecord.bytes ++ [7, 7]) ⟨none, []⟩
        = some (.ok it, [7, 7], mac1) ∧
      (∀ t, it.get t = sampleItemRecord.lastOfType t) ∧ it.get TypeEnd = none :=
  ReadItem_complete_record sampleItemRecord (by decide) [7, 7] ⟨none, []⟩

theorem ReadItem_nil (mac : Hash) : ReadItem [] mac = some (.error .EOF, [], mac) := by
  simp [ReadItem, ReadItem.loop, ReadField_nil]

theorem items_bytes_length (xs : List ItemRecord) :
    xs.length ≤ ((xs.map ItemRecord.bytes).flatten).length := by
  induction xs with
  | nil => simp
  | cons x xs ih =>
    have := ItemRecord_bytes_length x
    simp only [List.map_cons, List.flatten_cons, List.length_append, List.length_cons]
    omega

theorem parseItems_loop_records (rest : List ItemRecord) (hwf : ∀ x ∈ rest, x.WellFormed)
    (c : Keychain) (mac : Hash) (fuel : Nat) (hfuel : rest.length < fuel) :
    ∃ mac1, parseItems.loop fuel c ((rest.map ItemRecord.bytes).flatten) mac
      = ({ c with Items := c.Items ++ rest.map ItemRecord.item }, [], mac1, .nil) := by
  induction rest generalizing c mac fuel with
  | nil =>
    cases fuel with
    | zero => simp at hfuel
    | succ n =>
      refine ⟨mac, ?_⟩
      simp only [List.map_nil, List.flatten_nil, List.append_nil]
      rw [parseItems.loop, ReadItem_nil]
      simp
  | cons x rest ih =>
    cases fuel with
    | zero => simp at hfuel
    | succ n =>
      have hx := hwf x (List.mem_cons_self _ _)
      simp only [List.map_cons, List.flatten_cons]
      rw [parseItems.loop, ReadItem_record x hx _ mac]
      simp only
      obtain ⟨mac1, h1⟩ := ih (fun y hy => hwf y (List.mem_cons_of_mem _ hy))
        { c with Items := c.Items ++ [x.item] } _ n (by simp at hfuel; omega)
      refine ⟨mac1, ?_⟩
      rw [h1]
      simp

theorem parseItems_records (P : Lib) (c : Keychain) (mac : Hash) (hd : ItemRecord)
    (rest : List ItemRecord) (hwf : ∀ x ∈ hd :: rest, x.WellFormed) :
    ∃ mac1, parseItems P c (((hd :: rest).map ItemRecord.bytes).flatten) mac
      = ({ c with Header := some hd.item, Items := P.sortByName (rest.map ItemRecord.item) },
          [], mac1, .nil) := by
  have hhd := hwf hd (List.mem_cons_self _ _)
  simp only [List.map_cons, List.flatten_cons]
  rw [parseItems, ReadItem_record hd hhd _ mac]
  simp only
  obtain ⟨mac1, h1⟩ := parseItems_loop_records rest
    (fun y hy => hwf y (List.mem_cons_of_mem _ hy))
    { c with Header := some hd.item, Items := [] }
    ⟨mac.key, mac.written ++ (hd.fields.map Record.payload).flatten ++ hd.last.payload⟩
    (((rest.map ItemRecord.bytes).flatten).length + 1)
    (by have := items_bytes_length rest; omega)
  refine ⟨mac1, ?_⟩
  rw [h1]
  simp

theorem ItemRecord_item_get (x : ItemRecord) (t : FieldType) :
    x.item.get t = x.lastOfType t := by
  unfold ItemRecord.item ItemRecord.lastOfType
  rw [foldl_set_get]
  cases (x.fields.reverse.find? (fun f => f.tp.val = t)).map Record.field <;> rfl

theorem items_get (rest : List ItemRecord) :
    List.Forall₂ (fun (it : Item) (x : ItemRecord) => ∀ t, it.get t = x.lastOfType t)
      (rest.map ItemRecord.item) rest := by
  induction rest with
  | nil => exact List.Forall₂.nil
  | cons x rest ih => exact List.Forall₂.cons (ItemRecord_item_get x) ih

/-- C13. Header exclusion: on a cleartext made of `n ≥ 1` complete items and
nothing after them, `parseItems` returns nil with the whole stream read.
`Header` is the item of the first record: under every type it holds the last
field of that type in the first record.  `Items` is what `sort.Sort` makes of
the items of the `n - 1` later records, one item per record and each holding
the fields of its record in the same way: under the sort contract a permutation
of exactly those, `n - 1` many.  The end of the stream at the item boundary ends
the list; it is no error. -/
theorem parseItems_complete_items (P : Lib) (c : Keychain) (mac : Hash) (hd : ItemRecord)
    (rest : List ItemRecord) (hwf : ∀ x ∈ hd :: rest, x.WellFormed) :
    ∃ c1 mac1 h items, parseItems P c (((hd :: rest).map ItemRecord.bytes).flatten) mac
        = (c1, [], mac1, .nil) ∧
      c1.Header = some h ∧ (∀ t, h.get t = hd.lastOfType t) ∧
      List.Forall₂ (fun (it : Item) (x : ItemRecord) => ∀ t, it.get t = x.lastOfType t)
        items rest ∧
      c1.Items = P.sortByName items ∧
      (P.Contract → c1.Items.Perm items ∧ c1.Items.length = rest.length) := by
  obtain ⟨mac1, h⟩ := parseItems_records P c mac hd rest hwf
  refine ⟨_, mac1, hd.item, rest.map ItemRecord.item, h, rfl, ItemRecord_item_get hd,
    items_get rest, rfl, fun hP => ?_⟩
  have hperm := hP.sort_perm (rest.map ItemRecord.item)
  exact ⟨hperm, by rw [hperm.length_eq, List.length_map]⟩

set_option maxRecDepth 100000 in
/-- A header with title `"h"` and username `"0"`, then the sample record and an
entry titled `"a"`: the header holds the two fields of the first record and is
no entry; the entries are the item titled `"a"` and the item of the sample
record, titled `"b"` after its last title field. -/
theorem parseItems_complete_items_witness :
    (parseItems testLib emptyKeychain
        (([entryRecord 104 48, sampleItemRecord, entryRecord 97 49].map
          ItemRecord.bytes).flatten) ⟨none, []⟩).1.Header
      = some ⟨[⟨4, [48]⟩, ⟨3, [104]⟩]⟩
    ∧ (parseItems testLib emptyKeychain
        (([entryRecord 104 48, sampleItemRecord, entryRecord 97 49].map
          ItemRecord.bytes).flatten) ⟨none, []⟩).1.Items
      = [⟨[⟨4, [49]⟩, ⟨3, [97]⟩]⟩, ⟨[⟨3, [98]⟩, ⟨66, [1, 2]⟩]⟩]
    ∧ ∃ c1 mac1 h items, parseItems testLib emptyKeychain
          (([entryRecord 104 48, sampleItemRecord, entryRecord 97 49].map
            ItemRecord.bytes).flatten) ⟨none, []⟩
        = (c1, [], mac1, .nil) ∧
      c1.Header = some h ∧ (∀ t, h.get t = (entryRecord 104 48).lastOfType t) ∧
      List.Forall₂ (fun (it : Item) (x : ItemRecord) => ∀ t, it.get t = x.lastOfType t)
        items [sampleItemRecord, entryRecord 97 49] ∧
      c1.Items = testLib.sortByName items ∧
      (testLib.Contract →
        c1.Items.Perm items ∧ c1.Items.length = [sampleItemRecord, entryRecord 97 49].length) :=
  ⟨by decide, by decide,
    parseItems_complete_items testLib emptyKeychain ⟨none, []⟩ (entryRecord 104 48)
      [sampleItemRecord, entryRecord 97 49] (by decide)⟩

/-! ## The order of the entries -/

theorem lessRel_total : IsTotal Item (fun a b => ByName.Less b a = false) :=
  ⟨fun a b => by
    cases h : ByName.Less b a
    · exact Or.inl rfl
    · exact Or.inr (stringLess_asymm _ _ h)⟩

theorem lessRel_trans : IsTrans Item (fun a b => ByName.Less b a = false) :=
  ⟨fun _ _ _ h1 h2 => stringLess_negTrans _ _ _ h1 h2⟩

theorem shellSwap_perm (as bs : List Item) :
    ((shellSwap as bs).1 ++ (shellSwap as bs).2).Perm (as ++ bs) := by
  induction as generalizing bs with
  | nil => cases bs <;> simp [shellSwap]
  | cons a as ih =>
    cases bs with
    | nil => simp [shellSwap]
    | cons b bs =>
      have h := ih bs
      rw [shellSwap]
      split
      · simp only [List.cons_append]
        refine (List.Perm.cons b List.perm_middle).trans ?_
        refine (List.Perm.swap a b _).trans ?_
        refine List.Perm.cons a ?_
        exact (List.Perm.cons b h).trans List.perm_middle.symm
      · simp only [List.cons_append]
        refine List.Perm.cons a ?_
        exact List.perm_middle.trans ((List.Perm.cons b h).trans List.perm_middle.symm)

theorem shellPass_perm (l : List Item) : (shellPass l).Perm l := by
  have h := shellSwap_perm (l.take 6) (l.drop 6)
  rw [List.take_append_drop] at h
  exact h

theorem shellLib_contract : shellLib.Contract where
  sha256_size := testLib_contract.sha256_size
  hmac_size := testLib_contract.hmac_size
  twofish_size := testLib_contract.twofish_size
  sort_perm := fun l => (List.perm_insertionSort _ _).trans (shellPass_perm l)
  sort_sorted := fun l => by
    haveI := lessRel_total
    haveI := lessRel_trans
    exact List.sorted_insertionSort _ _

theorem parseItems_nil_spec (P : Lib) (c : Keychain) (r : List Byte) (mac : Hash)
    (c1 : Keychain) (r1 : List Byte) (mac1 : Hash)
    (h : parseItems P c r mac = (c1, r1, mac1, .nil)) :
    ∃ hd r0 m0, ReadItem r mac = some (.ok hd, r0, m0) ∧ c1.Header = some hd ∧
      c1.Items = P.sortByName (itemsOf r0) := by
  rcases parseItems_spec P c r mac c1 r1 mac1 _ h with hh | ⟨e, he, _⟩ |
    ⟨hd, r0, m0, hrd, ⟨e, he, _⟩ | ⟨_, hc, _, _⟩⟩
  · cases hh
  · cases he
  · cases he
  · exact ⟨hd, r0, m0, hrd, by rw [hc], by rw [hc]⟩

/-- C11. After a successful `parseItems`, with a `sort.Sort` that meets its
contract, `Items` is a permutation of the entries read after the header and is
in ascending order of display name under byte-wise comparison: for `i < j` the
name of `Items[j]` is not less than the name of `Items[i]`. -/
theorem parseItems_sorted_perm (P : Lib) (hP : P.Contract) (c : Keychain) (r : List Byte)
    (mac : Hash) (c1 : Keychain) (r1 : List Byte) (mac1 : Hash)
    (h : parseItems P c r mac = (c1, r1, mac1, .nil)) :
    ∃ hd r0 m0, ReadItem r mac = some (.ok hd, r0, m0) ∧ c1.Header = some hd ∧
      c1.Items.Perm (itemsOf r0) ∧
      c1.Items.Pairwise (fun a b => stringLess b.String a.String = false) ∧
      ∀ (i j : Fin c1.Items.length), i < j →
        stringLess (c1.Items.get j).String (c1.Items.get i).String = false := by
  obtain ⟨hd, r0, m0, hrd, hh, hi⟩ := parseItems_nil_spec P c r mac c1 r1 mac1 h
  have hsorted : c1.Items.Pairwise (fun a b => stringLess b.String a.String = false) := by
    rw [hi]; exact hP.sort_sorted _
  refine ⟨hd, r0, m0, hrd, hh, by rw [hi]; exact hP.sort_perm _, hsorted, ?_⟩
  intro i j hij
  exact List.Sorted.rel_get_of_lt hsorted hij

set_option maxRecDepth 1000000 in
/-- The seven entries of `tieStream`, parsed in the order `b, a, c, d, e, f, a`,
stand in `Items` in the order `a, a, b, c, d, e, f` under the sort of
`testLib`. -/
theorem parseItems_sorted_perm_witness :
    ∃ hd r0 m0, ReadItem tieStream ⟨none, []⟩ = some (.ok hd, r0, m0) ∧
      tieKeychain.Header = some hd ∧
      tieKeychain.Items.Perm (itemsOf r0) ∧
      tieKeychain.Items.Pairwise (fun a b => stringLess b.String a.String = false) ∧
      ∀ (i j : Fin tieKeychain.Items.length), i < j →
        stringLess (tieKeychain.Items.get j).String (tieKeychain.Items.get i).String = false :=
  parseItems_sorted_perm testLib testLib_contract emptyKeychain tieStream ⟨none, []⟩
    tieKeychain [] ⟨none, [98, 48, 97, 49, 99, 48, 100, 48, 101, 48, 102, 48, 97, 50]⟩
    (by decide)

set_option maxRecDepth 1000000 in
/-- C12 fails as stated.  With the `sort.Sort` of Go up to 1.18, which meets the
sort contract, the cleartext `tieStream` parses without error, and of its two
entries titled `a` the one with username `2`, parsed last, stands in `Items`
before the one with username `1`, parsed second. -/
theorem parseItems_ties_not_stable :
    shellLib.Contract
    ∧ itemsOf (tieStream.drop 16)
        = [entryItem 98 48, entryItem 97 49, entryItem 99 48, entryItem 100 48,
            entryItem 101 48, entryItem 102 48, entryItem 97 50]
    ∧ (entryItem 97 49).String = (entryItem 97 50).String
    ∧ (parseItems shellLib emptyKeychain tieStream ⟨none, []⟩).2.2.2 = .nil
    ∧ (parseItems shellLib emptyKeychain tieStream ⟨none, []⟩).1.Items
        = [entryItem 97 50, entryItem 97 49, entryItem 98 48, entryItem 99 48,
            entryItem 100 48, entryItem 101 48, entryItem 102 48] := by
  refine ⟨shellLib_contract, ?_, ?_, ?_, ?_⟩ <;> decide

/-- C12, amended.  After a successful `parseItems`, with a `sort.Sort` that meets
its contract, the entries of each display name are in `Items` the same entries
as were parsed, equally often; their order among themselves is the one
`sort.Sort` leaves.  It is the parse order whenever `sort.Sort` has acted on the
entry list as the stable insertion sort does. -/
theorem parseItems_ties (P : Lib) (hP : P.Contract) (c : Keychain) (r : List Byte)
    (mac : Hash) (c1 : Keychain) (r1 : List Byte) (mac1 : Hash)
    (h : parseItems P c r mac = (c1, r1, mac1, .nil)) :
    ∃ hd r0 m0, ReadItem r mac = some (.ok hd, r0, m0) ∧
      (∀ name : List Byte, (c1.Items.filter (fun i => i.String = name)).Perm
        ((itemsOf r0).filter (fun i => i.String = name))) ∧
      (P.sortByName (itemsOf r0)
          = List.insertionSort (fun a b => ByName.Less b a = false) (itemsOf r0) →
        ∀ a b : Item, a.String = b.String → List.Sublist [a, b] (itemsOf r0) →
          List.Sublist [a, b] c1.Items) := by
  obtain ⟨hd, r0, m0, hrd, _, hi⟩ := parseItems_nil_spec P c r mac c1 r1 mac1 h
  refine ⟨hd, r0, m0, hrd, fun name => ?_, fun hst a b hab hsub => ?_⟩
  · rw [hi]
    exact (hP.sort_perm _).filter _
  · rw [hi, hst]
    refine List.pair_sublist_insertionSort ?_ hsub
    show stringLess b.String a.String = false
    rw [hab]
    exact stringLess_irrefl _

set_option maxRecDepth 1000000 in
/-- With the stable sort of `testLib`, the two entries of `tieStream` titled `a`
keep their parse order. -/
theorem parseItems_ties_witness :
    ∃ hd r0 m0, ReadItem tieStream ⟨none, []⟩ = some (.ok hd, r0, m0) ∧
      (∀ name : List Byte,
        ((parseItems testLib emptyKeychain tieStream ⟨none, []⟩).1.Items.filter
          (fun i => i.String = name)).Perm ((itemsOf r0).filter (fun i => i.String = name))) ∧
      (testLib.sortByName (itemsOf r0)
          = List.insertionSort (fun a b => ByName.Less b a = false) (itemsOf r0) →
        ∀ a b : Item, a.String = b.String → List.Sublist [a, b] (itemsOf r0) →
          List.Sublist [a, b]
            (parseItems testLib emptyKeychain tieStream ⟨none, []⟩).1.Items) :=
  parseItems_ties testLib testLib_contract emptyKeychain tieStream ⟨none, []⟩
    (parseItems testLib emptyKeychain tieStream ⟨none, []⟩).1
    (parseItems testLib emptyKeychain tieStream ⟨none, []⟩).2.1
    (parseItems testLib emptyKeychain tieStream ⟨none, []⟩).2.2.1 (by decide)

/-! ## Find -/

theorem Find_loop_valid (R : Regexp) (re : List Byte) (h : R.compiles re = true)
    (l : List Item) :
    Find.loop R re l = (l.filter (fun i => R.isMatch re i.String), .closed) := by
  induction l with
  | nil => rfl
  | cons f rest ih =>
    rw [Find.loop, Regexp.MatchString, if_pos h, ih]
    simp only
    cases hm : R.isMatch re f.String <;> simp [List.filter_cons, hm]

theorem Find_loop_invalid (R : Regexp) (re : List Byte) (h : R.compiles re = false)
    (f : Item) (rest : List Item) : Find.loop R re (f :: rest) = ([], .panic) := by
  rw [Find.loop, Regexp.MatchString]
  simp [h]

/-- C14 fails as stated.  With the pattern `"("`, which does not compile, `Find`
on a Keychain with entries panics, and on a Keychain without entries it
delivers the empty sequence and closes, exactly as for the pattern `"z"`, which
compiles and matches nothing. -/
theorem Find_invalid_pattern_panics :
    testRegexp.compiles [40] = false
    ∧ Find testRegexp unlockedKeychain [40] = ([], .panic)
    ∧ Find testRegexp unlockedEmpty [40] = ([], .closed)
    ∧ testRegexp.compiles [122] = true
    ∧ Find testRegexp unlockedEmpty [122] = ([], .closed)
    ∧ Find testRegexp unlockedKeychain [122] = ([], .closed) := by
  decide

/-- C14, amended.  For a pattern that does not compile, `Find` reports no error
to its caller: on a Keychain with at least one entry its goroutine panics at the
first entry and nothing is delivered; on a Keychain with no entry it delivers
the empty sequence and closes, as it does there for every pattern. -/
theorem Find_invalid_pattern (R : Regexp) (c : Keychain) (re : List Byte)
    (h : R.compiles re = false) :
    (c.Items ≠ [] → Find R c re = ([], .panic)) ∧
    (c.Items = [] → ∀ re', Find R c re' = ([], .closed)) := by
  unfold Find
  constructor
  · intro hne
    cases hI : c.Items with
    | nil => exact absurd hI hne
    | cons f rest => exact Find_loop_invalid R re h f rest
  · intro he re'
    rw [he]
    rfl

/-- The pattern `"("` on the Keychain with two entries. -/
theorem Find_invalid_pattern_witness :
    Find testRegexp unlockedKeychain [40] = ([], .panic) :=
  (Find_invalid_pattern testRegexp unlockedKeychain [40] (by decide)).1 (by decide)

/-- C15. For a pattern that compiles, `Find` delivers exactly the entries of
`Items` whose display name matches, in the order of `Items`, and closes the
channel: a subsequence of `Items`, at most as long, empty when nothing matches,
and the same whatever `Header` is.  `Find` only reads the Keychain. -/
theorem Find_valid_pattern (R : Regexp) (c : Keychain) (re : List Byte)
    (h : R.compiles re = true) :
    Find R c re = (c.Items.filter (fun i => R.isMatch re i.String), .closed) ∧
    List.Sublist (Find R c re).1 c.Items ∧
    (Find R c re).1.length ≤ c.Items.length ∧
    ((∀ i ∈ c.Items, R.isMatch re i.String = false) → (Find R c re).1 = []) ∧
    (∀ hdr, Find R { c with Header := hdr } re = Find R c re) := by
  have hF : Find R c re = (c.Items.filter (fun i => R.isMatch re i.String), .closed) :=
    Find_loop_valid R re h c.Items
  refine ⟨hF, ?_, ?_, ?_, fun _ => rfl⟩
  · rw [hF]; exact List.filter_sublist _
  · rw [hF]; exact List.length_filter_le _ _
  · intro hno
    rw [hF]
    simp only [List.filter_eq_nil_iff]
    intro i hi
    simp [hno i hi]

/-- The literal pattern `"Four"` on the Keychain with two entries delivers the
entry `"Test Four"`. -/
theorem Find_valid_pattern_witness :
    Find testRegexp unlockedKeychain [70, 111, 117, 114]
      = (unlockedKeychain.Items.filter
          (fun i => testRegexp.isMatch [70, 111, 117, 114] i.String), .closed) ∧
    List.Sublist (Find testRegexp unlockedKeychain [70, 111, 117, 114]).1
      unlockedKeychain.Items ∧
    (Find testRegexp unlockedKeychain [70, 111, 117, 114]).1.length
      ≤ unlockedKeychain.Items.length ∧
    ((∀ i ∈ unlockedKeychain.Items, testRegexp.isMatch [70, 111, 117, 114] i.String = false) →
      (Find testRegexp unlockedKeychain [70, 111, 117, 114]).1 = []) ∧
    (∀ hdr, Find testRegexp { unlockedKeychain with Header := hdr } [70, 111, 117, 114]
      = Find testRegexp unlockedKeychain [70, 111, 117, 114]) :=
  Find_valid_pattern testRegexp unlockedKeychain [70, 111, 117, 114] (by decide)

/-! ## Letter case -/

theorem occurs_iff (s p : List Byte) : occurs s p = true ↔ p <:+: s := by
  unfold occurs
  rw [occurs_iff_drop]
  cases h : Index s p with
  | none =>
    have := (Index_eq_none_iff s p).1 h
    simp only [Option.isSome_none, Bool.false_eq_true, false_iff, not_exists]
    exact this
  | some n =>
    have := ((Index_eq_some_iff s p n).1 h).1
    simp only [Option.isSome_some, true_iff]
    exact ⟨n, this⟩

theorem isLiteral_not_flag (p : List Byte) (h : isLiteral p = true) :
    startsWith p flagI = false := by
  cases p with
  | nil => rfl
  | cons b p =>
    have hb : b ≠ 40 := by
      intro e
      subst e
      simp [isLiteral] at h
      exact absurd h.1 (by decide)
    simp [startsWith, flagI, hb]

theorem testRegexp_contract : testRegexp.Contract where
  literal_compiles := fun p h => by
    constructor
    · have : p ≠ [40] := by
        intro e
        subst e
        simp [isLiteral] at h
        exact absurd h (by decide)
      simp [testRegexp, this]
    · have : flagI ++ p ≠ [40] := by
        intro e
        have := congrArg List.length e
        simp [flagI] at this
      simp [testRegexp, this]
  literal_match := fun p s h => by
    simp only [testRegexp, isLiteral_not_flag p h, Bool.false_eq_true, if_false]
    exact occurs_iff s p
  fold_match := fun p s _ hsub => by
    have hs : startsWith (flagI ++ p) flagI = true :=
      (startsWith_iff _ _).2 (List.prefix_append _ _)
    have hd : (flagI ++ p).drop 4 = p := List.drop_left' rfl
    simp only [testRegexp, hs, if_true, hd]
    exact (occurs_iff _ _).2 hsub

/-- C16 fails as stated.  The literal pattern `"test four"` equals the display
name `"Test Four"` up to letter case, yet `Find` with this pattern delivers
nothing; with the flag that `argsToRE` puts in front it delivers the entry. -/
theorem Find_case_sensitive :
    namedItem [84, 101, 115, 116, 32, 70, 111, 117, 114] ∈ unlockedKeychain.Items
    ∧ isLiteral [116, 101, 115, 116, 32, 102, 111, 117, 114] = true
    ∧ lower [116, 101, 115, 116, 32, 102, 111, 117, 114]
        = lower (namedItem [84, 101, 115, 116, 32, 70, 111, 117, 114]).String
    ∧ Find testRegexp unlockedKeychain [116, 101, 115, 116, 32, 102, 111, 117, 114]
        = ([], .closed)
    ∧ Find testRegexp unlockedKeychain
          (argsToRE [[108, 105, 115, 116], [116, 101, 115, 116], [102, 111, 117, 114]])
        = ([namedItem [84, 101, 115, 116, 32, 70, 111, 117, 114]], .closed) := by
  decide

/-- C16, amended.  `Find` matches the pattern as it is given: for a literal
pattern, an entry is delivered exactly when its display name contains the
pattern, letter case included.  Matching without regard to letter case comes
from `argsToRE`, which puts `(?i)` in front: for arguments that join to a
literal pattern, `Find` on `argsToRE args` delivers every entry whose display
name contains that pattern up to ASCII letter case. -/
theorem Find_argsToRE_folds_case (R : Regexp) (hR : R.Contract) (c : Keychain)
    (args : List (List Byte)) (e : Item)
    (hp : isLiteral (List.intercalate [32] (args.drop 1)) = true) (he : e ∈ c.Items)
    (hsub : lower (List.intercalate [32] (args.drop 1)) <:+: lower e.String) :
    e ∈ (Find R c (argsToRE args)).1 ∧ (Find R c (argsToRE args)).2 = .closed ∧
    (∀ p, isLiteral p = true → (Find R c p).2 = .closed ∧
      (e ∈ (Find R c p).1 ↔ p <:+: e.String)) := by
  have hF : Find R c (argsToRE args)
      = (c.Items.filter (fun i => R.isMatch (argsToRE args) i.String), .closed) :=
    Find_loop_valid R _ (hR.literal_compiles _ hp).2 c.Items
  refine ⟨?_, by rw [hF], fun p hlit => ?_⟩
  · rw [hF]
    simp only [List.mem_filter]
    exact ⟨he, hR.fold_match _ _ hp hsub⟩
  · have hFp : Find R c p = (c.Items.filter (fun i => R.isMatch p i.String), .closed) :=
      Find_loop_valid R _ (hR.literal_compiles _ hlit).1 c.Items
    rw [hFp]
    simp only [List.mem_filter, he, true_and]
    exact hR.literal_match p e.String hlit

/-- The arguments `list test four` find the entry `"Test Four"`. -/
theorem Find_argsToRE_folds_case_witness :
    namedItem [84, 101, 115, 116, 32, 70, 111, 117, 114]
      ∈ (Find testRegexp unlockedKeychain
        (argsToRE [[108, 105, 115, 116], [116, 101, 115, 116], [102, 111, 117, 114]])).1 :=
  (Find_argsToRE_folds_case testRegexp testRegexp_contract unlockedKeychain
    [[108, 105, 115, 116], [116, 101, 115, 116], [102, 111, 117, 114]]
    (namedItem [84, 101, 115, 116, 32, 70, 111, 117, 114]) (by decide) (by decide)
    ((occurs_iff _ _).1 (by decide))).1

end Pwsf
